import Mathlib

/-
Verification development for a Chinese A-share market-data platform.

The repository contains two implementations ("Legacy" and "Async") of an
ingest / store / derive-indicators / serve pipeline.  This file gives a
shallow embedding, in Lean 4, of the components the verified properties
are about:

* the Legacy simplified nine-turn detector (`calculate_td_sequential`,
  web server module);
* the Async nine-turn Setup state machine (`calculate_td_setup`,
  technical-analysis module);
* the pure (non-accelerated) RSI / KDJ / Bollinger indicator fallbacks
  (technical-analysis module);
* the Legacy data-integrity check (`check_data_integrity`, sync engine);
* the fixed-window rate limiter (`check_rate_limit`, cache module);
* the Legacy favorites add handler (`add_favorite`, web server module);
* the nine-turn-signal refresh persistence (`update_nine_turn_signals`
  and `_save_nine_turn_signals`, service module);
* the WebSocket connection registry (`ConnectionManager`, websocket
  module).

Modelling conventions:

* Python floats are modelled as rationals (`ℚ`); the one square root
  (Bollinger standard deviation) is taken in `ℝ`.  Float `NaN` results
  (and the unreachable `±inf` intermediate of KDJ) are modelled as
  `none` of an `Option` type: a pandas rolling/ewm cell is `none`
  exactly when pandas yields `NaN`.  The float literal `0.8` of the
  integrity check is modelled as the rational `4/5`.
* Functions that only compare prices are polymorphic over a
  `LinearOrder`, matching Python's duck typing; this lets concrete
  witnesses run on integers.
* Database tables are association lists / row lists, dictionaries are
  association lists, Python sets are duplicate-free lists with
  membership-based insert/discard, and the single-row SQL queries are
  `List.find?`.
* Network sends that may fail are given an explicit success flag (or a
  list of failing connection ids); wall-clock values (`datetime.now`)
  are parameters.
-/

/-! # Legacy simplified nine-turn detector (web server module)

`calculate_td_sequential(closes)`: walks the close series comparing
`closes[i]` with `closes[i-4]`; a higher close increments a buy counter
(reported as `None` once it would exceed 9), a lower close increments a
sell counter symmetrically, an equal close resets both; returns the
final bar's state (buy count, negated sell count, or `None`). -/

/-- Loop body of the Legacy simplified detector.  The input list holds the
pairs `(closes[i], closes[i-4])` for `i = 4, …, n-1`; the two
accumulators are `buy_count` and `sell_count`; the result is the pair of
`buy_sequence` / `sell_sequence` suffixes produced from bar 4 on. -/
def tdSeqRun {α : Type} [LinearOrder α] :
    List (α × α) → ℕ → ℕ → List (Option ℕ) × List (Option ℕ)
  | [], _, _ => ([], [])
  | (c, p) :: rest, buyCount, sellCount =>
    if p < c then
      let b := buyCount + 1
      let out := tdSeqRun rest b 0
      ((if b ≤ 9 then some b else none) :: out.1, (none : Option ℕ) :: out.2)
    else if c < p then
      let s := sellCount + 1
      let out := tdSeqRun rest 0 s
      ((none : Option ℕ) :: out.1, (if s ≤ 9 then some s else none) :: out.2)
    else
      let out := tdSeqRun rest 0 0
      ((none : Option ℕ) :: out.1, (none : Option ℕ) :: out.2)

/-- The full `buy_sequence` and `sell_sequence` lists of the Legacy
simplified detector: `None` for the first four bars (`i < 4`), then the
loop output. -/
def tdSeqSequences {α : Type} [LinearOrder α] (closes : List α) :
    List (Option ℕ) × List (Option ℕ) :=
  let tail := tdSeqRun ((closes.drop 4).zip closes) 0 0
  (List.replicate (min 4 closes.length) none ++ tail.1,
   List.replicate (min 4 closes.length) none ++ tail.2)

/-- Legacy `calculate_td_sequential`: `None` for fewer than 5 closes,
otherwise the last bar's buy count, the negated last sell count, or
`None`. -/
def calculate_td_sequential {α : Type} [LinearOrder α] (closes : List α) : Option ℤ :=
  if closes.length < 5 then none
  else
    match (tdSeqSequences closes).1.getLast?.join with
    | some b => some (b : ℤ)
    | none =>
      match (tdSeqSequences closes).2.getLast?.join with
      | some s => some (-(s : ℤ))
      | none => none

/-! # Async nine-turn Setup phase (technical-analysis module)

`NineTurnSequential.calculate_td_setup(df)`: per-bar columns
`td_setup_buy`, `td_setup_sell`, `td_setup_buy_complete`,
`td_setup_sell_complete` (the `*_count` columns of the source always
mirror `td_setup_buy` / `td_setup_sell` and are not duplicated here),
driven by two running counters.  The input is the close series already
sorted by trade date. -/

/-- One row of the TD-Setup output. -/
structure SetupRow where
  td_setup_buy : ℕ
  td_setup_sell : ℕ
  td_setup_buy_complete : Bool
  td_setup_sell_complete : Bool
deriving DecidableEq

/-- One iteration of the TD-Setup loop at a bar with close `c` and
4-bars-earlier close `p`; `buyCount`/`sellCount` are the running
counters and `prevBuy`/`prevSell` the previous row's recorded
`td_setup_buy` / `td_setup_sell` values.  Returns the bar's row and the
updated counters. -/
def setupStep {α : Type} [LinearOrder α] (c p : α)
    (buyCount sellCount prevBuy prevSell : ℕ) : SetupRow × ℕ × ℕ :=
  if c < p then
    if buyCount = 0 ∨ 0 < prevBuy then
      let bc := buyCount + 1
      if 9 ≤ bc then (⟨bc, 0, true, false⟩, 0, 0)
      else (⟨bc, 0, false, false⟩, bc, 0)
    else (⟨1, 0, false, false⟩, 1, 0)
  else if p < c then
    if sellCount = 0 ∨ 0 < prevSell then
      let sc := sellCount + 1
      if 9 ≤ sc then (⟨0, sc, false, true⟩, 0, 0)
      else (⟨0, sc, false, false⟩, 0, sc)
    else (⟨0, 1, false, false⟩, 0, 1)
  else
    (⟨0, 0, false, false⟩, 0, 0)

/-- The TD-Setup loop over the pairs `(closes[i], closes[i-4])` for
`i = 4, …, n-1`, returning the produced rows together with the final
`(buy_count, sell_count)` state. -/
def setupRun {α : Type} [LinearOrder α] :
    List (α × α) → ℕ → ℕ → ℕ → ℕ → List SetupRow × ℕ × ℕ
  | [], b, s, _, _ => ([], b, s)
  | (c, p) :: rest, b, s, pb, ps =>
    let r := setupStep c p b s pb ps
    let out := setupRun rest r.2.1 r.2.2 r.1.td_setup_buy r.1.td_setup_sell
    (r.1 :: out.1, out.2)

/-- Async `calculate_td_setup` on a close series sorted by trade date:
all-zero rows for the first four bars, then the loop rows. -/
def calculate_td_setup {α : Type} [LinearOrder α] (closes : List α) : List SetupRow :=
  List.replicate (min 4 closes.length) ⟨0, 0, false, false⟩ ++
    (setupRun ((closes.drop 4).zip closes) 0 0 0 0).1

/-- The running `(buy_count, sell_count)` state after `calculate_td_setup`
has processed the whole series. -/
def td_setup_final_counts {α : Type} [LinearOrder α] (closes : List α) : ℕ × ℕ :=
  (setupRun ((closes.drop 4).zip closes) 0 0 0 0).2

/-! # Pure indicator fallbacks (technical-analysis module)

Rolling-window helpers shared by RSI, KDJ and Bollinger: pandas
`rolling(window=w)` with the default `min_periods` yields `NaN`
(modelled `none`) at indices `i` with `i + 1 < w`, and otherwise
aggregates the window `xs[i+1-w … i]`. -/

/-- The rolling window of width `w` ending at index `i`. -/
def rwindow (w i : ℕ) (xs : List ℚ) : List ℚ :=
  (xs.take (i + 1)).drop (i + 1 - w)

/-- pandas `rolling(w).mean()`. -/
def rollingMean (w : ℕ) (xs : List ℚ) : List (Option ℚ) :=
  (List.range xs.length).map fun i =>
    if i + 1 < w then none else some ((rwindow w i xs).sum / w)

/-- pandas `rolling(w).min()`. -/
def rollingMin (w : ℕ) (xs : List ℚ) : List (Option ℚ) :=
  (List.range xs.length).map fun i =>
    if i + 1 < w then none else (rwindow w i xs).min?

/-- pandas `rolling(w).max()`. -/
def rollingMax (w : ℕ) (xs : List ℚ) : List (Option ℚ) :=
  (List.range xs.length).map fun i =>
    if i + 1 < w then none else (rwindow w i xs).max?

/-- pandas `rolling(w).std()` squared, i.e. the sample variance of the
window (`ddof = 1`); `NaN` (none) for `w < 2`, where the source's `0/0`
is `NaN`. -/
def rollingVar (w : ℕ) (xs : List ℚ) : List (Option ℚ) :=
  (List.range xs.length).map fun i =>
    if i + 1 < w ∨ w < 2 then none
    else
      let win := rwindow w i xs
      let m := win.sum / w
      some ((win.map fun x => (x - m) ^ 2).sum / (w - 1 : ℕ))

/-- The source of the RSI gain series: `delta.where(delta > 0, 0)`.
`delta[0]` is `NaN`, and `NaN > 0` is false, so index 0 becomes 0. -/
def gainSrc (closes : List ℚ) : List ℚ :=
  (List.range closes.length).map fun i =>
    if i = 0 then 0
    else
      let d := closes.getD i 0 - closes.getD (i - 1) 0
      if 0 < d then d else 0

/-- The source of the RSI loss series: `(-delta).where(delta < 0, 0)`. -/
def lossSrc (closes : List ℚ) : List ℚ :=
  (List.range closes.length).map fun i =>
    if i = 0 then 0
    else
      let d := closes.getD i 0 - closes.getD (i - 1) 0
      if d < 0 then -d else 0

/-- Pure fallback of `TechnicalIndicators.calculate_rsi`:
`rsi = 100 − 100/(1 + gain/loss)` on rolling means of gains and losses.
In float arithmetic `gain/loss` is `NaN` when both are 0 (so the cell is
`none`) and `+inf` when only `loss` is 0 (so the cell is 100). -/
def calculate_rsi (closes : List ℚ) (period : ℕ) : List (Option ℚ) :=
  let gain := rollingMean period (gainSrc closes)
  let loss := rollingMean period (lossSrc closes)
  (List.range closes.length).map fun i =>
    match gain.getD i none, loss.getD i none with
    | some g, some l =>
      if g = 0 ∧ l = 0 then none
      else if l = 0 then some 100
      else some (100 - 100 / (1 + g / l))
    | _, _ => none

/-- The KDJ raw stochastic value
`RSV = (close − lowest_low) / (highest_high − lowest_low) × 100`; `none`
where the rolling extrema are undefined or coincide (float `0/0`, or the
`±inf` of a division by zero, neither a finite value). -/
def rsvList (high low close : List ℚ) (w : ℕ) : List (Option ℚ) :=
  (List.range close.length).map fun i =>
    match (rollingMin w low).getD i none, (rollingMax w high).getD i none with
    | some ll, some hh =>
      if hh = ll then none
      else some ((close.getD i 0 - ll) / (hh - ll) * 100)
    | _, _ => none

/-- One step of pandas `ewm(alpha=α).mean()` with the default
`adjust=True, ignore_na=False`: the accumulator carries the weighted
numerator and the weight sum, both decayed by `1 − α` each bar; a `NaN`
bar contributes nothing but still decays the weights. -/
def ewmStep (a : ℚ) (acc : ℚ × ℚ) (x : Option ℚ) : ℚ × ℚ :=
  match x with
  | some v => ((1 - a) * acc.1 + v, (1 - a) * acc.2 + 1)
  | none => ((1 - a) * acc.1, (1 - a) * acc.2)

/-- pandas `ewm(alpha=a).mean()` over an `Option`-valued series, relative
to a starting accumulator. -/
def ewmAux (a : ℚ) : List (Option ℚ) → ℚ × ℚ → List (Option ℚ)
  | [], _ => []
  | x :: rest, acc =>
    let acc := ewmStep a acc x
    (if acc.2 = 0 then none else some (acc.1 / acc.2)) :: ewmAux a rest acc

/-- pandas `ewm(alpha=a).mean()`. -/
def ewmMean (a : ℚ) (xs : List (Option ℚ)) : List (Option ℚ) :=
  ewmAux a xs (0, 0)

/-- Pure fallback of `TechnicalIndicators.calculate_kdj`: K is the
`alpha = 1/d_period` exponential smoothing of RSV, D the
`alpha = 1/j_period` smoothing of K, and `J = 3K − 2D` elementwise. -/
def calculate_kdj (high low close : List ℚ) (k_period d_period j_period : ℕ) :
    List (Option ℚ) × List (Option ℚ) × List (Option ℚ) :=
  let rsv := rsvList high low close k_period
  let k := ewmMean (1 / (d_period : ℚ)) rsv
  let d := ewmMean (1 / (j_period : ℚ)) k
  let j := (List.range close.length).map fun i =>
    match k.getD i none, d.getD i none with
    | some kv, some dv => some (3 * kv - 2 * dv)
    | _, _ => none
  (k, d, j)

/-- Pure fallback of `TechnicalIndicators.calculate_bollinger_bands`:
`middle = rolling mean`, `upper/lower = middle ± std_dev × rolling
standard deviation`.  The square root lives in `ℝ`. -/
noncomputable def bollUpper (xs : List ℚ) (period : ℕ) (std_dev : ℚ) : List (Option ℝ) :=
  (List.range xs.length).map fun i =>
    match (rollingMean period xs).getD i none, (rollingVar period xs).getD i none with
    | some m, some v => some ((m : ℝ) + (std_dev : ℝ) * Real.sqrt (v : ℝ))
    | _, _ => none

/-- Lower Bollinger band, `middle − std_dev × std`. -/
noncomputable def bollLower (xs : List ℚ) (period : ℕ) (std_dev : ℚ) : List (Option ℝ) :=
  (List.range xs.length).map fun i =>
    match (rollingMean period xs).getD i none, (rollingVar period xs).getD i none with
    | some m, some v => some ((m : ℝ) - (std_dev : ℝ) * Real.sqrt (v : ℝ))
    | _, _ => none

/-- The `(upper, middle, lower)` triple returned by
`calculate_bollinger_bands`. -/
noncomputable def calculate_bollinger_bands (xs : List ℚ) (period : ℕ) (std_dev : ℚ) :
    List (Option ℝ) × List (Option ℚ) × List (Option ℝ) :=
  (bollUpper xs period std_dev, rollingMean period xs, bollLower xs period std_dev)

/-! # Legacy data-integrity check (sync engine)

`DataSync.check_data_integrity(sync_dates, expected_counts)`: per date,
sums the row counts of seven tables, flags zero-row dates as missing and
dates strictly below 80% of the expected count as incomplete.  The
database is abstracted as a row-count function `table → date → count`
(the per-table `SELECT COUNT(*)`). -/

/-- The seven tables the integrity check queries. -/
def integrityTables : List String :=
  ["daily_data", "stock_basic_data", "margin_data", "moneyflow_data",
   "top_list_data", "top_inst_data", "daily_basic_data"]

/-- Total observed rows for one date across the seven checked tables. -/
def totalActualForDate (db : String → String → ℕ) (d : String) : ℕ :=
  (integrityTables.map fun t => db t d).sum

/-- `expected_counts.get(sync_date, 0)`. -/
def expectedGet (expected : List (String × ℕ)) (d : String) : ℕ :=
  ((expected.find? fun p => p.1 = d).map (·.2)).getD 0

/-- The fields of the integrity report the verified properties are about
(the per-date `details` map and the completion percentage are not
modelled; `incomplete_data` keeps only the date key of each entry). -/
structure IntegrityReport where
  is_complete : Bool
  missing_dates : List String
  incomplete_data : List String
  total_expected : ℕ
  total_actual : ℕ
deriving DecidableEq

/-- The per-date body of the integrity loop. -/
def integrityStep (db : String → String → ℕ) (expected : List (String × ℕ))
    (rep : IntegrityReport) (d : String) : IntegrityReport :=
  let t := totalActualForDate db d
  let rep := { rep with total_actual := rep.total_actual + t }
  if t = 0 then
    { rep with missing_dates := rep.missing_dates ++ [d], is_complete := false }
  else if (t : ℚ) < (expectedGet expected d : ℚ) * (4 / 5) then
    { rep with incomplete_data := rep.incomplete_data ++ [d], is_complete := false }
  else rep

/-- Legacy `check_data_integrity`. -/
def check_data_integrity (db : String → String → ℕ) (sync_dates : List String)
    (expected : List (String × ℕ)) : IntegrityReport :=
  sync_dates.foldl (integrityStep db expected)
    ⟨true, [], [], (expected.map (·.2)).sum, 0⟩

/-! # Fixed-window rate limiter (cache module)

`RateLimitCache.check_rate_limit(key, limit, window)` over the Redis
state of one key, modelled as `Option (count, ttl)`; `redisUp` is
falsity of `not redis_client`, `raises` models an exception inside the
`try`. -/

/-- One rate-limit check: returns whether the request is allowed and the
key's new state. -/
def check_rate_limit (redisUp raises : Bool) (state : Option (ℕ × ℕ))
    (limit window : ℕ) : Bool × Option (ℕ × ℕ) :=
  if !redisUp then (true, state)
  else if raises then (true, state)
  else
    match state with
    | none => (true, some (1, window))
    | some (c, t) => if limit ≤ c then (false, some (c, t)) else (true, some (c + 1, t))

/-- Expiry of the key's TTL: Redis drops the key. -/
def rlExpire : Option (ℕ × ℕ) → Option (ℕ × ℕ) := fun _ => none

/-- The allowed/denied outcomes of `n` consecutive checks within one
window (Redis up, no errors), from a given key state. -/
def rlRun (limit window : ℕ) : ℕ → Option (ℕ × ℕ) → List Bool
  | 0, _ => []
  | n + 1, st =>
    let r := check_rate_limit true false st limit window
    r.1 :: rlRun limit window n r.2

/-! # Legacy favorites add handler (web server module)

`add_favorite`: reads `ts_code` from the request body, returns 400 when
missing/empty, 404 when the security is unknown, 409 when already a
favorite, and otherwise inserts one `favorite_stocks` row. -/

/-- One `favorite_stocks` row. -/
structure FavRow where
  ts_code : String
  name : String
  added_date : String
deriving DecidableEq

/-- The slice of the Legacy database the favorites handler touches:
`stock_basic_info` as `(ts_code, name)` pairs and the favorites table. -/
structure LegacyDb where
  stock_basic_info : List (String × String)
  favorite_stocks : List FavRow
deriving DecidableEq

/-- HTTP outcome of the favorites handler. -/
inductive ApiStatus where
  | ok
  | badRequest
  | notFound
  | conflict
deriving DecidableEq

/-- Legacy `add_favorite`; `today` stands for `datetime.now()` formatted
as a date. -/
def add_favorite (db : LegacyDb) (ts_code : Option String) (today : String) :
    ApiStatus × LegacyDb :=
  match ts_code with
  | none => (.badRequest, db)
  | some code =>
    if code = "" then (.badRequest, db)
    else
      match db.stock_basic_info.find? fun p => p.1 = code with
      | none => (.notFound, db)
      | some info =>
        if (db.favorite_stocks.find? fun r => r.ts_code = code).isSome then
          (.conflict, db)
        else
          (.ok, { db with favorite_stocks := db.favorite_stocks ++ [⟨code, info.2, today⟩] })

/-- The favorites rows stored for a code. -/
def favRowsFor (db : LegacyDb) (code : String) : List FavRow :=
  db.favorite_stocks.filter fun r => r.ts_code = code

/-! # Nine-turn-signal refresh persistence (service module)

`StockDataService.update_nine_turn_signals` per security: skip under 13
days of history, compute the detector output, extract the recent
qualifying signals (`get_current_signals`, 30-day window), and — only
when at least one signal was extracted — delete the security's prior
`NineTurnSignal` rows and insert the new ones
(`_save_nine_turn_signals`). -/

/-- One bar of detector output (`calculate_nine_turn_signals`), with the
fields `get_current_signals` and the save step read. -/
structure BarSignal where
  trade_date : String
  close : ℚ
  nine_turn_signal : ℤ
  signal_strength : ℚ
  signal_description : String
  setup_buy_count : ℕ
  setup_sell_count : ℕ
  countdown_buy_count : ℕ
  countdown_sell_count : ℕ
deriving DecidableEq

/-- One persisted `NineTurnSignal` row. -/
structure NineTurnSignalRow where
  ts_code : String
  signal_date : String
  signal_type : String
  signal_strength : ℚ
  close_price : ℚ
  setup_buy_count : ℕ
  setup_sell_count : ℕ
  countdown_buy_count : ℕ
  countdown_sell_count : ℕ
deriving DecidableEq

/-- `get_current_signals(df, days)`: of the last `days` bars, those with
a non-zero signal and strength strictly above 0.5. -/
def get_current_signals (df : List BarSignal) (days : ℕ) : List BarSignal :=
  (df.drop (df.length - days)).filter fun r =>
    r.nine_turn_signal ≠ 0 ∧ (1 / 2 : ℚ) < r.signal_strength

/-- The row `_save_nine_turn_signals` builds from one extracted signal
dict (whose `signal_type` is `'buy'` for a positive signal, `'sell'`
otherwise). -/
def mkSignalRow (code : String) (r : BarSignal) : NineTurnSignalRow :=
  { ts_code := code
    signal_date := r.trade_date
    signal_type := if 0 < r.nine_turn_signal then "buy" else "sell"
    signal_strength := r.signal_strength
    close_price := r.close
    setup_buy_count := r.setup_buy_count
    setup_sell_count := r.setup_sell_count
    countdown_buy_count := r.countdown_buy_count
    countdown_sell_count := r.countdown_sell_count }

/-- `_save_nine_turn_signals`: delete the security's existing rows, then
insert the new ones. -/
def save_nine_turn_signals (table : List NineTurnSignalRow) (code : String)
    (signals : List BarSignal) : List NineTurnSignalRow :=
  (table.filter fun r => r.ts_code ≠ code) ++ signals.map (mkSignalRow code)

/-- The `update_nine_turn_signals` loop body for one security: `history`
is the detector output over the security's loaded history (one bar per
loaded day).  The save (and hence the delete of prior rows) runs only
when the extracted signal list is non-empty. -/
def update_nine_turn_signals_one (table : List NineTurnSignalRow) (code : String)
    (history : List BarSignal) : List NineTurnSignalRow :=
  if history.length < 13 then table
  else
    let recent := get_current_signals history 30
    if recent.isEmpty then table
    else save_nine_turn_signals table code recent

/-- The signal rows stored for a code. -/
def signalRowsFor (table : List NineTurnSignalRow) (code : String) : List NineTurnSignalRow :=
  table.filter fun r => r.ts_code = code

/-! # WebSocket connection registry (websocket module)

`ConnectionManager` state and operations.  Connection ids are strings
(the generated uuid is a parameter, fresh on `connect`); subscription
topics model the source's `"stock:{code}"` / `"market"` / `"nine_turn"`
strings (the fixed-prefix encoding is injective, so an inductive type is
used); every acknowledgment send carries a success flag, and a broadcast
carries the list of connections whose send fails. -/

/-- A subscription topic. -/
inductive Topic where
  | stock (code : String)
  | market
  | nineTurn
deriving DecidableEq

/-- Lookup in a Python dict modelled as an association list. -/
def alistGet? {β : Type} (l : List (String × β)) (k : String) : Option β :=
  (l.find? fun p => p.1 = k).map (·.2)

/-- `dict[k] = v`. -/
def alistSet {β : Type} (l : List (String × β)) (k : String) (v : β) :
    List (String × β) :=
  (l.filter fun p => p.1 ≠ k) ++ [(k, v)]

/-- Update the value stored at an existing key (no-op for a missing key;
the source would raise `KeyError` there, which the registry invariant
rules out). -/
def alistUpdate {β : Type} (l : List (String × β)) (k : String) (f : β → β) :
    List (String × β) :=
  l.map fun p => if p.1 = k then (p.1, f p.2) else p

/-- `del dict[k]`. -/
def alistDelete {β : Type} (l : List (String × β)) (k : String) :
    List (String × β) :=
  l.filter fun p => p.1 ≠ k

/-- Python `set.add` on a duplicate-free list. -/
def setAdd {α : Type} [DecidableEq α] (l : List α) (x : α) : List α :=
  if x ∈ l then l else l ++ [x]

/-- Python `set.discard`. -/
def setDiscard {α : Type} [DecidableEq α] (l : List α) (x : α) : List α :=
  l.filter fun y => y ≠ x

/-- The `ConnectionManager` registry state (socket handles are dropped:
`active_connections` keeps only its key set). -/
structure CMState where
  active_connections : List String
  subscriptions : List (String × List Topic)
  stock_subscribers : List (String × List String)
  market_subscribers : List String
  nine_turn_subscribers : List String
deriving DecidableEq

/-- A connection's forward subscription set (`subscriptions[id]`, empty
for an unknown id). -/
def subsOf (st : CMState) (id : String) : List Topic :=
  (alistGet? st.subscriptions id).getD []

/-- `stock_subscribers[ts_code]` discard `id`, deleting the key when the
set becomes empty — the shared shape of `unsubscribe_stock` and the
stock case of `_cleanup_subscriptions`. -/
def stockDiscard (subs : List (String × List String)) (code id : String) :
    List (String × List String) :=
  match alistGet? subs code with
  | none => subs
  | some ids =>
    if (setDiscard ids id).isEmpty then alistDelete subs code
    else alistUpdate subs code fun s => setDiscard s id

/-- One step of `_cleanup_subscriptions`: undo one topic membership. -/
def cleanupTopic (id : String) (st : CMState) (t : Topic) : CMState :=
  match t with
  | .stock code => { st with stock_subscribers := stockDiscard st.stock_subscribers code id }
  | .market => { st with market_subscribers := setDiscard st.market_subscribers id }
  | .nineTurn => { st with nine_turn_subscribers := setDiscard st.nine_turn_subscribers id }

/-- `_cleanup_subscriptions(connection_id)`. -/
def cleanup_subscriptions (st : CMState) (id : String) : CMState :=
  match alistGet? st.subscriptions id with
  | none => st
  | some topics => topics.foldl (cleanupTopic id) st

/-- `disconnect(connection_id)`. -/
def disconnect (st : CMState) (id : String) : CMState :=
  if id ∈ st.active_connections then
    let st1 := cleanup_subscriptions st id
    { st1 with
      active_connections := setDiscard st1.active_connections id
      subscriptions := alistDelete st1.subscriptions id }
  else st

/-- `send_personal_message`: a failed send disconnects the target
connection; a successful send (or a send to an unknown id) leaves the
registry unchanged. -/
def send_personal_message (st : CMState) (id : String) (ok : Bool) : CMState :=
  if id ∈ st.active_connections ∧ ok = false then disconnect st id else st

/-- `connect(websocket)` with generated id `id`, followed by the
connection-confirmation send. -/
def connect (st : CMState) (id : String) (sendOk : Bool) : CMState :=
  let st1 := { st with
    active_connections := setAdd st.active_connections id
    subscriptions := alistSet st.subscriptions id [] }
  send_personal_message st1 id sendOk

/-- `subscribe_stock(connection_id, ts_code)` including the confirmation
send. -/
def subscribe_stock (st : CMState) (id code : String) (sendOk : Bool) : CMState :=
  if id ∈ st.active_connections then
    let st1 := { st with
      subscriptions := alistUpdate st.subscriptions id (fun s => setAdd s (.stock code)) }
    let base :=
      if (alistGet? st1.stock_subscribers code).isSome then st1.stock_subscribers
      else alistSet st1.stock_subscribers code []
    let st2 := { st1 with stock_subscribers := alistUpdate base code (fun s => setAdd s id) }
    send_personal_message st2 id sendOk
  else st

/-- `unsubscribe_stock(connection_id, ts_code)` including the
confirmation send. -/
def unsubscribe_stock (st : CMState) (id code : String) (sendOk : Bool) : CMState :=
  if id ∈ st.active_connections then
    let st1 := { st with
      subscriptions := alistUpdate st.subscriptions id (fun s => setDiscard s (.stock code)) }
    let st2 := { st1 with stock_subscribers := stockDiscard st1.stock_subscribers code id }
    send_personal_message st2 id sendOk
  else st

/-- `subscribe_market(connection_id)` including the confirmation send. -/
def subscribe_market (st : CMState) (id : String) (sendOk : Bool) : CMState :=
  if id ∈ st.active_connections then
    let st1 := { st with
      subscriptions := alistUpdate st.subscriptions id (fun s => setAdd s .market)
      market_subscribers := setAdd st.market_subscribers id }
    send_personal_message st1 id sendOk
  else st

/-- `unsubscribe_market(connection_id)` including the confirmation
send. -/
def unsubscribe_market (st : CMState) (id : String) (sendOk : Bool) : CMState :=
  if id ∈ st.active_connections then
    let st1 := { st with
      subscriptions := alistUpdate st.subscriptions id (fun s => setDiscard s .market)
      market_subscribers := setDiscard st.market_subscribers id }
    send_personal_message st1 id sendOk
  else st

/-- `subscribe_nine_turn(connection_id)` including the confirmation
send. -/
def subscribe_nine_turn (st : CMState) (id : String) (sendOk : Bool) : CMState :=
  if id ∈ st.active_connections then
    let st1 := { st with
      subscriptions := alistUpdate st.subscriptions id (fun s => setAdd s .nineTurn)
      nine_turn_subscribers := setAdd st.nine_turn_subscribers id }
    send_personal_message st1 id sendOk
  else st

/-- `unsubscribe_nine_turn(connection_id)` including the confirmation
send. -/
def unsubscribe_nine_turn (st : CMState) (id : String) (sendOk : Bool) : CMState :=
  if id ∈ st.active_connections then
    let st1 := { st with
      subscriptions := alistUpdate st.subscriptions id (fun s => setDiscard s .nineTurn)
      nine_turn_subscribers := setDiscard st.nine_turn_subscribers id }
    send_personal_message st1 id sendOk
  else st

/-- The cleanup path of `broadcast_to_subscribers` applied to one stock
topic's set (`stock_subscribers[code]` is mutated in place): every
subscriber that is no longer active or whose send failed is discarded
from the set; the key is never deleted here. -/
def broadcast_to_stock (st : CMState) (code : String) (failing : List String) : CMState :=
  let keep : List String → List String :=
    fun ids => ids.filter fun i => i ∈ st.active_connections ∧ i ∉ failing
  { st with stock_subscribers := alistUpdate st.stock_subscribers code keep }

/-- The cleanup path of `broadcast_to_subscribers` applied to the market
topic. -/
def broadcast_to_market (st : CMState) (failing : List String) : CMState :=
  { st with market_subscribers :=
      st.market_subscribers.filter fun i => i ∈ st.active_connections ∧ i ∉ failing }

/-- The cleanup path of `broadcast_to_subscribers` applied to the
nine-turn topic. -/
def broadcast_to_nine_turn (st : CMState) (failing : List String) : CMState :=
  { st with nine_turn_subscribers :=
      st.nine_turn_subscribers.filter fun i => i ∈ st.active_connections ∧ i ∉ failing }

/-- Registry invariant, part 1: `active_connections` and `subscriptions`
hold exactly the same connection ids. -/
def Inv1 (st : CMState) : Prop :=
  (∀ id ∈ st.active_connections, (alistGet? st.subscriptions id).isSome = true) ∧
  (∀ p ∈ st.subscriptions, p.1 ∈ st.active_connections)

/-- The subscriber set stored under a code (`stock_subscribers[code]`,
empty for an absent code). -/
def stockIdsOf (st : CMState) (code : String) : List String :=
  (alistGet? st.stock_subscribers code).getD []

/-- Registry invariant, part 2: every id in `stock_subscribers[code]`
has the stock topic in its forward subscription set. -/
def Inv2 (st : CMState) : Prop :=
  ∀ p ∈ st.stock_subscribers, ∀ id ∈ stockIdsOf st p.1, Topic.stock p.1 ∈ subsOf st id

/-- Registry invariant, part 3: market and nine-turn subscribers have
the matching topic in their forward subscription sets. -/
def Inv3 (st : CMState) : Prop :=
  (∀ id ∈ st.market_subscribers, Topic.market ∈ subsOf st id) ∧
  (∀ id ∈ st.nine_turn_subscribers, Topic.nineTurn ∈ subsOf st id)

/-- Registry invariant, part 4: no code maps to an empty subscriber
set. -/
def Inv4 (st : CMState) : Prop :=
  ∀ p ∈ st.stock_subscribers, stockIdsOf st p.1 ≠ []

/-- The full registry invariant. -/
def RegistryInv (st : CMState) : Prop :=
  Inv1 st ∧ Inv2 st ∧ Inv3 st ∧ Inv4 st

instance : DecidablePred Inv1 := fun st => by unfold Inv1; infer_instance
instance : DecidablePred Inv2 := fun st => by unfold Inv2; infer_instance
instance : DecidablePred Inv3 := fun st => by unfold Inv3; infer_instance
instance : DecidablePred Inv4 := fun st => by unfold Inv4; infer_instance
instance : DecidablePred RegistryInv := fun st => by unfold RegistryInv; infer_instance

/-! # Theorems -/

/-- Claim C1, counterexample: on the strictly increasing closes
`[10, …, 19]` the Legacy simplified detector does not return a final buy
count of 5 (indices 4 through 9 give six, not five, increments). -/
theorem C1_counterexample :
    calculate_td_sequential ([10, 11, 12, 13, 14, 15, 16, 17, 18, 19] : List ℤ) ≠ some 5 := by
  decide

/-- Claim C1, amended: on `[10, …, 19]` the detector returns a final buy
count of 6, with buy-sequence trace `1, 2, 3, 4, 5, 6` at indices
4 through 9 (index 4: `14 > 10` gives `buy = 1`, …, index 9: `19 > 15`
gives `buy = 6`). -/
theorem C1_amended :
    calculate_td_sequential ([10, 11, 12, 13, 14, 15, 16, 17, 18, 19] : List ℤ) = some 6 ∧
    (tdSeqSequences ([10, 11, 12, 13, 14, 15, 16, 17, 18, 19] : List ℤ)).1 =
      [none, none, none, none, some 1, some 2, some 3, some 4, some 5, some 6] := by
  decide

/-- Claim C7: the fixed-window rate limiter stores count 1 with TTL equal
to the window on a key's first request and allows it; allows and
increments while the stored count is below the ceiling; denies without
changing the count once the stored count has reached the ceiling; allows
again after TTL expiry drops the key; fails open when the store is down
or the check raises; and over one window with ceiling 100, requests
1 through 100 are allowed and the 101st is denied. -/
theorem C7_check_rate_limit_spec :
    (∀ limit window : ℕ,
      check_rate_limit true false none limit window = (true, some (1, window))) ∧
    (∀ limit window c t : ℕ, c < limit →
      check_rate_limit true false (some (c, t)) limit window = (true, some (c + 1, t))) ∧
    (∀ limit window c t : ℕ, limit ≤ c →
      check_rate_limit true false (some (c, t)) limit window = (false, some (c, t))) ∧
    (∀ (st : Option (ℕ × ℕ)) (limit window : ℕ),
      check_rate_limit false false st limit window = (true, st)) ∧
    (∀ (st : Option (ℕ × ℕ)) (limit window : ℕ),
      check_rate_limit true true st limit window = (true, st)) ∧
    (∀ (st : Option (ℕ × ℕ)) (limit window : ℕ),
      check_rate_limit true false (rlExpire st) limit window = (true, some (1, window))) ∧
    rlRun 100 60 101 none = List.replicate 100 true ++ [false] := by
  refine ⟨fun _ _ => rfl, ?_, ?_, fun _ _ _ => rfl, fun _ _ _ => rfl, fun _ _ _ => rfl, ?_⟩
  · intro limit window c t h
    simp [check_rate_limit, Nat.not_le.mpr h]
  · intro limit window c t h
    simp [check_rate_limit, h]
  · decide

/-- Claim C7, witness: concrete below-ceiling and at-ceiling checks. -/
theorem C7_witness :
    check_rate_limit true false (some (3, 60)) 100 60 = (true, some (4, 60)) ∧
    check_rate_limit true false (some (100, 7)) 100 60 = (false, some (100, 7)) :=
  ⟨C7_check_rate_limit_spec.2.1 100 60 3 60 (by decide),
   C7_check_rate_limit_spec.2.2.1 100 60 100 7 (by decide)⟩

/-- Claim C8: for an add-favorite request with a (non-empty) security
code, an unknown security gives 404 and no insert; a code already saved
gives 409 and no insert; otherwise exactly one favorites row is
appended and the handler succeeds — so a second identical call returns
409 and exactly one row for the code remains persisted. -/
theorem C8_add_favorite_spec (db : LegacyDb) (code today : String) (hcode : code ≠ "") :
    ((db.stock_basic_info.find? fun p => p.1 = code) = none →
      add_favorite db (some code) today = (ApiStatus.notFound, db)) ∧
    (∀ nm, (db.stock_basic_info.find? fun p => p.1 = code) = some nm →
      ((∃ r ∈ db.favorite_stocks, r.ts_code = code) →
        add_favorite db (some code) today = (ApiStatus.conflict, db)) ∧
      ((∀ r ∈ db.favorite_stocks, r.ts_code ≠ code) →
        add_favorite db (some code) today =
          (ApiStatus.ok,
            { db with favorite_stocks := db.favorite_stocks ++ [⟨code, nm.2, today⟩] }) ∧
        favRowsFor (add_favorite db (some code) today).2 code = [⟨code, nm.2, today⟩] ∧
        add_favorite (add_favorite db (some code) today).2 (some code) today =
          (ApiStatus.conflict, (add_favorite db (some code) today).2))) := by
  constructor
  · intro h
    simp [add_favorite, hcode, h]
  · intro nm h
    constructor
    · rintro ⟨r, hrmem, hreq⟩
      have hsome : (db.favorite_stocks.find? fun r => r.ts_code = code).isSome = true := by
        rw [List.find?_isSome]
        exact ⟨r, hrmem, by simp [hreq]⟩
      simp [add_favorite, hcode, h, hsome]
    · intro hfresh
      have hnone : (db.favorite_stocks.find? fun r => r.ts_code = code) = none := by
        rw [List.find?_eq_none]
        intro r hrmem
        simp [hfresh r hrmem]
      have hfirst : add_favorite db (some code) today =
          (ApiStatus.ok,
            { db with favorite_stocks := db.favorite_stocks ++ [⟨code, nm.2, today⟩] }) := by
        simp [add_favorite, hcode, h, hnone]
      refine ⟨hfirst, ?_, ?_⟩
      · rw [hfirst]
        simp only [favRowsFor, List.filter_append]
        rw [List.filter_eq_nil_iff.mpr (by intro r hrmem; simp [hfresh r hrmem])]
        simp
      · rw [hfirst]
        have hsome2 : ((db.favorite_stocks ++ [(⟨code, nm.2, today⟩ : FavRow)]).find?
            fun r => r.ts_code = code).isSome = true := by
          rw [List.find?_isSome]
          exact ⟨⟨code, nm.2, today⟩, by simp, by simp⟩
        simp [add_favorite, hcode, h, hsome2]

/-- Claim C8, witness: adding a known, not-yet-saved code succeeds with
one persisted row, and adding it again returns 409 with that single row
unchanged. -/
theorem C8_witness :
    add_favorite ⟨[("000001.SZ", "PAB")], []⟩ (some "000001.SZ") "2026-10-12" =
      (ApiStatus.ok, ⟨[("000001.SZ", "PAB")], [⟨"000001.SZ", "PAB", "2026-10-12"⟩]⟩) ∧
    favRowsFor (add_favorite ⟨[("000001.SZ", "PAB")], []⟩ (some "000001.SZ") "2026-10-12").2
      "000001.SZ" = [⟨"000001.SZ", "PAB", "2026-10-12"⟩] ∧
    add_favorite (add_favorite ⟨[("000001.SZ", "PAB")], []⟩ (some "000001.SZ") "2026-10-12").2
      (some "000001.SZ") "2026-10-12" =
      (ApiStatus.conflict,
        (add_favorite ⟨[("000001.SZ", "PAB")], []⟩ (some "000001.SZ") "2026-10-12").2) := by
  have h := ((C8_add_favorite_spec ⟨[("000001.SZ", "PAB")], []⟩ "000001.SZ" "2026-10-12"
    (by decide)).2 ("000001.SZ", "PAB") (by decide)).2 (by decide)
  exact ⟨by simpa using h.1, h.2.1, h.2.2⟩

/-- The integrity loop appends to `missing_dates` exactly the processed
dates with zero observed rows. -/
theorem integrity_foldl_missing (db : String → String → ℕ) (expected : List (String × ℕ)) :
    ∀ (dates : List String) (rep : IntegrityReport),
      (dates.foldl (integrityStep db expected) rep).missing_dates =
        rep.missing_dates ++ dates.filter fun d => totalActualForDate db d = 0 := by
  intro dates
  induction dates with
  | nil => simp
  | cons d rest ih =>
    intro rep
    rw [List.foldl_cons, ih]
    by_cases h : totalActualForDate db d = 0
    · simp [integrityStep, h, List.filter_cons]
    · by_cases h2 : (totalActualForDate db d : ℚ) < (expectedGet expected d : ℚ) * (4 / 5)
      · simp [integrityStep, h, h2, List.filter_cons]
      · simp [integrityStep, h, h2, List.filter_cons]

/-- The integrity loop appends to `incomplete_data` exactly the processed
dates with a positive row count strictly below 80% of the expected
count. -/
theorem integrity_foldl_incomplete (db : String → String → ℕ) (expected : List (String × ℕ)) :
    ∀ (dates : List String) (rep : IntegrityReport),
      (dates.foldl (integrityStep db expected) rep).incomplete_data =
        rep.incomplete_data ++ dates.filter fun d =>
          totalActualForDate db d ≠ 0 ∧
          (totalActualForDate db d : ℚ) < (expectedGet expected d : ℚ) * (4 / 5) := by
  intro dates
  induction dates with
  | nil => simp
  | cons d rest ih =>
    intro rep
    rw [List.foldl_cons, ih]
    by_cases h : totalActualForDate db d = 0
    · simp [integrityStep, h, List.filter_cons]
    · by_cases h2 : (totalActualForDate db d : ℚ) < (expectedGet expected d : ℚ) * (4 / 5)
      · simp [integrityStep, h, h2, List.filter_cons]
      · simp [integrityStep, h, h2, List.filter_cons]

/-- The integrity loop's completeness flag stays true exactly when it was
true before and every processed date is neither missing nor
incomplete. -/
theorem integrity_foldl_complete (db : String → String → ℕ) (expected : List (String × ℕ)) :
    ∀ (dates : List String) (rep : IntegrityReport),
      (dates.foldl (integrityStep db expected) rep).is_complete = true ↔
        (rep.is_complete = true ∧ ∀ d ∈ dates,
          totalActualForDate db d ≠ 0 ∧
          ¬((totalActualForDate db d : ℚ) < (expectedGet expected d : ℚ) * (4 / 5))) := by
  intro dates
  induction dates with
  | nil => simp
  | cons d rest ih =>
    intro rep
    rw [List.foldl_cons, ih]
    by_cases h : totalActualForDate db d = 0
    · simp [integrityStep, h]
    · by_cases h2 : (totalActualForDate db d : ℚ) < (expectedGet expected d : ℚ) * (4 / 5)
      · simp [integrityStep, h, h2]
      · simp [integrityStep, h, h2, not_lt.mp h2]

/-- Claim C6, counterexample: a date with zero observed rows and expected
count 0 sits at exactly 80% of its expected count, yet it is classified
missing — so "exactly 80% of expected is never classified missing or
incomplete" fails as stated at this input. -/
theorem C6_counterexample :
    ((totalActualForDate (fun _ _ => 0) "20240101" : ℚ)
        = (expectedGet [] "20240101" : ℚ) * (4 / 5)) ∧
    "20240101" ∈ (check_data_integrity (fun _ _ => 0) ["20240101"] []).missing_dates ∧
    (check_data_integrity (fun _ _ => 0) ["20240101"] []).is_complete = false := by
  refine ⟨?_, ?_, ?_⟩
  · simp [totalActualForDate, integrityTables, expectedGet]
  · simp [check_data_integrity, integrityStep, totalActualForDate, integrityTables]
  · simp [check_data_integrity, integrityStep, totalActualForDate, integrityTables]

/-- Claim C6, amended: a date whose seven checked tables hold zero rows
in total is listed in `missing_dates` and forces `is_complete` to
false; and a date with a positive row count equal to exactly 80% of its
expected count is classified neither missing nor incomplete (the
incomplete threshold is strictly-less-than 80%). -/
theorem C6_integrity_spec (db : String → String → ℕ) (dates : List String)
    (expected : List (String × ℕ)) (d : String) (hd : d ∈ dates) :
    (totalActualForDate db d = 0 →
      d ∈ (check_data_integrity db dates expected).missing_dates ∧
      (check_data_integrity db dates expected).is_complete = false) ∧
    (0 < totalActualForDate db d →
      (totalActualForDate db d : ℚ) = (expectedGet expected d : ℚ) * (4 / 5) →
      d ∉ (check_data_integrity db dates expected).missing_dates ∧
      d ∉ (check_data_integrity db dates expected).incomplete_data) := by
  constructor
  · intro h0
    constructor
    · rw [check_data_integrity, integrity_foldl_missing]
      simp only [List.nil_append]
      exact List.mem_filter.mpr ⟨hd, by simp [h0]⟩
    · rw [Bool.eq_false_iff]
      intro htrue
      rw [check_data_integrity, integrity_foldl_complete] at htrue
      exact (htrue.2 d hd).1 h0
  · intro hpos heq
    constructor
    · rw [check_data_integrity, integrity_foldl_missing]
      simp only [List.nil_append]
      intro hmem
      have := (List.mem_filter.mp hmem).2
      simp at this
      omega
    · rw [check_data_integrity, integrity_foldl_incomplete]
      simp only [List.nil_append]
      intro hmem
      have := (List.mem_filter.mp hmem).2
      rw [heq] at this
      simp at this

/-- Claim C6, witness: a date with 4 observed rows against an expected
count of 5 (exactly 80%) is neither missing nor incomplete. -/
theorem C6_witness :
    "20240102" ∉ (check_data_integrity (fun t _ => if t = "daily_data" then 4 else 0)
      ["20240102"] [("20240102", 5)]).missing_dates ∧
    "20240102" ∉ (check_data_integrity (fun t _ => if t = "daily_data" then 4 else 0)
      ["20240102"] [("20240102", 5)]).incomplete_data :=
  (C6_integrity_spec (fun t _ => if t = "daily_data" then 4 else 0) ["20240102"]
      [("20240102", 5)] "20240102" (by simp)).2
    (by decide)
    (by
      have h4 : totalActualForDate (fun t _ => if t = "daily_data" then 4 else 0)
          "20240102" = 4 := by
        simp [totalActualForDate, integrityTables]
      have h5 : expectedGet [("20240102", 5)] "20240102" = 5 := by
        simp [expectedGet]
      rw [h4, h5]
      norm_num)

/-- Claim C3, counterexample: a security with 13 days of history whose
detector output contains no qualifying signal keeps its stale prior
`NineTurnSignal` row after the refresh — the delete step is skipped when
zero signals are extracted, so the stored rows are not the (empty)
extracted set. -/
theorem C3_counterexample :
    get_current_signals
      (List.replicate 13 (⟨"20240102", 10, 0, 0, "", 0, 0, 0, 0⟩ : BarSignal)) 30 = [] ∧
    signalRowsFor
      (update_nine_turn_signals_one
        [(⟨"000001.SZ", "20240101", "buy", 1, 10, 9, 0, 0, 0⟩ : NineTurnSignalRow)]
        "000001.SZ"
        (List.replicate 13 (⟨"20240102", 10, 0, 0, "", 0, 0, 0, 0⟩ : BarSignal)))
      "000001.SZ" =
      [(⟨"000001.SZ", "20240101", "buy", 1, 10, 9, 0, 0, 0⟩ : NineTurnSignalRow)] := by
  have hrec : get_current_signals
      (List.replicate 13 (⟨"20240102", 10, 0, 0, "", 0, 0, 0, 0⟩ : BarSignal)) 30 = [] := by
    rw [get_current_signals, List.filter_eq_nil_iff]
    intro r hr
    have := List.eq_of_mem_replicate (List.mem_of_mem_drop hr)
    subst this
    simp
  refine ⟨hrec, ?_⟩
  rw [update_nine_turn_signals_one]
  rw [if_neg (by simp)]
  simp only [hrec, List.isEmpty_nil, if_pos]
  simp [signalRowsFor]

/-- Claim C3, amended: for a security with at least 13 days of history,
when at least one qualifying signal is extracted over the 30-day window
the refresh replaces the security's stored rows with exactly the
extracted signals and leaves other securities' rows untouched; when
zero qualifying signals are extracted the whole table — including the
security's prior rows — is left unchanged. -/
theorem C3_update_signals_spec (table : List NineTurnSignalRow) (code : String)
    (history : List BarSignal) (h13 : 13 ≤ history.length) :
    (get_current_signals history 30 ≠ [] →
      signalRowsFor (update_nine_turn_signals_one table code history) code =
        (get_current_signals history 30).map (mkSignalRow code) ∧
      (update_nine_turn_signals_one table code history).filter
          (fun r => r.ts_code ≠ code) =
        table.filter (fun r => r.ts_code ≠ code)) ∧
    (get_current_signals history 30 = [] →
      update_nine_turn_signals_one table code history = table) := by
  rw [update_nine_turn_signals_one, if_neg (by omega)]
  constructor
  · intro hne
    rw [if_neg (by simpa [List.isEmpty_iff] using hne)]
    constructor
    · rw [signalRowsFor, save_nine_turn_signals, List.filter_append]
      have h1 : (table.filter fun r => r.ts_code ≠ code).filter
          (fun r => r.ts_code = code) = [] := by
        rw [List.filter_eq_nil_iff]
        intro r hr
        simp only [List.mem_filter] at hr
        simpa using hr.2
      have h2 : ((get_current_signals history 30).map (mkSignalRow code)).filter
          (fun r => r.ts_code = code) =
          (get_current_signals history 30).map (mkSignalRow code) := by
        rw [List.filter_eq_self]
        intro r hr
        obtain ⟨b, _, rfl⟩ := List.mem_map.mp hr
        simp [mkSignalRow]
      rw [h1, h2, List.nil_append]
    · rw [save_nine_turn_signals, List.filter_append]
      have h1 : (table.filter fun r => r.ts_code ≠ code).filter
          (fun r => r.ts_code ≠ code) = table.filter fun r => r.ts_code ≠ code := by
        rw [List.filter_eq_self]
        intro r hr
        exact (List.mem_filter.mp hr).2
      have h2 : ((get_current_signals history 30).map (mkSignalRow code)).filter
          (fun r => r.ts_code ≠ code) = [] := by
        rw [List.filter_eq_nil_iff]
        intro r hr
        obtain ⟨b, _, rfl⟩ := List.mem_map.mp hr
        simp [mkSignalRow]
      rw [h1, h2, List.append_nil]
  · intro hemp
    rw [if_pos (by simp [hemp])]

/-- Claim C3, witness: a refresh that extracts qualifying signals
replaces the stored rows for the security and leaves another
security's rows untouched. -/
theorem C3_witness :
    signalRowsFor
      (update_nine_turn_signals_one
        [(⟨"000002.SZ", "20240101", "sell", 1, 8, 0, 9, 0, 0⟩ : NineTurnSignalRow)]
        "000001.SZ"
        (List.replicate 13 (⟨"20240110", 12, 1, 1, "d", 9, 0, 0, 0⟩ : BarSignal)))
      "000001.SZ" =
      (get_current_signals
        (List.replicate 13 (⟨"20240110", 12, 1, 1, "d", 9, 0, 0, 0⟩ : BarSignal)) 30).map
        (mkSignalRow "000001.SZ") ∧
    (update_nine_turn_signals_one
        [(⟨"000002.SZ", "20240101", "sell", 1, 8, 0, 9, 0, 0⟩ : NineTurnSignalRow)]
        "000001.SZ"
        (List.replicate 13 (⟨"20240110", 12, 1, 1, "d", 9, 0, 0, 0⟩ : BarSignal))).filter
        (fun r => r.ts_code ≠ "000001.SZ") =
      [(⟨"000002.SZ", "20240101", "sell", 1, 8, 0, 9, 0, 0⟩ : NineTurnSignalRow)].filter
        (fun r => r.ts_code ≠ "000001.SZ") := by
  have hrec : get_current_signals
      (List.replicate 13 (⟨"20240110", 12, 1, 1, "d", 9, 0, 0, 0⟩ : BarSignal)) 30 =
      List.replicate 13 (⟨"20240110", 12, 1, 1, "d", 9, 0, 0, 0⟩ : BarSignal) := by
    rw [get_current_signals,
      show (List.replicate 13 (⟨"20240110", 12, 1, 1, "d", 9, 0, 0, 0⟩ : BarSignal)).length
        - 30 = 0 by simp,
      List.drop_zero, List.filter_eq_self]
    intro r hr
    rw [List.eq_of_mem_replicate hr]
    norm_num
  exact (C3_update_signals_spec _ "000001.SZ" _ (by simp)).1 (by rw [hrec]; simp)

/-- Indexing a map over `List.range`. -/
theorem range_map_getD {β : Type} (n i : ℕ) (f : ℕ → Option β) :
    ((List.range n).map f).getD i none = if i < n then f i else none := by
  by_cases h : i < n
  · simp [List.getD_eq_getElem?_getD, List.getElem?_map, List.getElem?_range, h]
  · rw [if_neg h]
    rw [List.getD_eq_getElem?_getD, List.getElem?_eq_none]
    · rfl
    · simpa using Nat.le_of_not_lt h

/-- Rolling-window elements come from the underlying series. -/
theorem mem_of_mem_rwindow {w i : ℕ} {xs : List ℚ} {x : ℚ} (hx : x ∈ rwindow w i xs) :
    x ∈ xs :=
  List.mem_of_mem_take (List.mem_of_mem_drop hx)

/-- Closed form of one rolling-mean cell. -/
theorem rollingMean_getD (w : ℕ) (xs : List ℚ) (i : ℕ) :
    (rollingMean w xs).getD i none =
      if i < xs.length ∧ ¬(i + 1 < w) then some ((rwindow w i xs).sum / w) else none := by
  rw [rollingMean, range_map_getD]
  by_cases h1 : i < xs.length
  · by_cases h2 : i + 1 < w
    · simp [h1, h2]
    · simp [h1, h2]
  · simp [h1]

/-- A defined rolling mean of a nonnegative series is nonnegative. -/
theorem rollingMean_nonneg {w : ℕ} {xs : List ℚ} (hxs : ∀ x ∈ xs, 0 ≤ x) {i : ℕ} {g : ℚ}
    (h : (rollingMean w xs).getD i none = some g) : 0 ≤ g := by
  rw [rollingMean_getD] at h
  by_cases hc : i < xs.length ∧ ¬(i + 1 < w)
  · rw [if_pos hc] at h
    have hg : g = (rwindow w i xs).sum / w := by
      exact (Option.some_inj.mp h).symm
    rw [hg]
    apply div_nonneg
    · exact List.sum_nonneg fun x hx => hxs x (mem_of_mem_rwindow hx)
    · positivity
  · rw [if_neg hc] at h
    exact absurd h (by simp)

/-- A branch of the gain source is nonnegative. -/
theorem ite_pos_nonneg (d : ℚ) : 0 ≤ if 0 < d then d else 0 := by
  split_ifs with h
  · exact le_of_lt h
  · exact le_refl 0

/-- A branch of the loss source is nonnegative. -/
theorem ite_neg_nonneg (d : ℚ) : 0 ≤ if d < 0 then -d else 0 := by
  split_ifs with h
  · linarith
  · exact le_refl 0

/-- Every element of the RSI gain source series is nonnegative. -/
theorem gainSrc_nonneg (closes : List ℚ) : ∀ x ∈ gainSrc closes, 0 ≤ x := by
  intro x hx
  rw [gainSrc] at hx
  obtain ⟨i, _, rfl⟩ := List.mem_map.mp hx
  by_cases h0 : i = 0
  · simp [h0]
  · rw [if_neg h0]
    exact ite_pos_nonneg _

/-- Every element of the RSI loss source series is nonnegative. -/
theorem lossSrc_nonneg (closes : List ℚ) : ∀ x ∈ lossSrc closes, 0 ≤ x := by
  intro x hx
  rw [lossSrc] at hx
  obtain ⟨i, _, rfl⟩ := List.mem_map.mp hx
  by_cases h0 : i = 0
  · simp [h0]
  · rw [if_neg h0]
    exact ite_neg_nonneg _

/-- On a constant close series both RSI source series are identically
zero. -/
theorem src_replicate_zero (n : ℕ) (c : ℚ) :
    (∀ x ∈ gainSrc (List.replicate n c), x = 0) ∧
    (∀ x ∈ lossSrc (List.replicate n c), x = 0) := by
  constructor <;>
  · intro x hx
    first
    | rw [gainSrc] at hx
    | rw [lossSrc] at hx
    obtain ⟨i, hi, rfl⟩ := List.mem_map.mp hx
    rw [List.mem_range, List.length_replicate] at hi
    by_cases h0 : i = 0
    · simp [h0]
    · rw [if_neg h0]
      have hd : (List.replicate n c).getD i 0 - (List.replicate n c).getD (i - 1) 0 = 0 := by
        rw [List.getD_eq_getElem?_getD, List.getD_eq_getElem?_getD,
          List.getElem?_replicate, List.getElem?_replicate,
          if_pos hi, if_pos (by omega : i - 1 < n)]
        simp
      rw [hd]
      simp

/-- On a constant close series every RSI cell is undefined (`NaN`): the
rolling gain and loss means are both zero, so `RS = 0/0`. -/
theorem calculate_rsi_replicate (n w : ℕ) (c : ℚ) :
    calculate_rsi (List.replicate n c) w = List.replicate n none := by
  rw [calculate_rsi]
  have hmem : ∀ b ∈ (List.range (List.replicate n c).length).map fun i =>
      match (rollingMean w (gainSrc (List.replicate n c))).getD i none,
        (rollingMean w (lossSrc (List.replicate n c))).getD i none with
      | some g, some l =>
        if g = 0 ∧ l = 0 then none
        else if l = 0 then some 100
        else some (100 - 100 / (1 + g / l))
      | _, _ => none, b = (none : Option ℚ) := by
    intro b hb
    obtain ⟨i, hi, rfl⟩ := List.mem_map.mp hb
    rw [List.mem_range, List.length_replicate] at hi
    have hzero : ∀ (src : List ℚ), (∀ x ∈ src, x = 0) →
        (rollingMean w src).getD i none = none ∨
        (rollingMean w src).getD i none = some 0 := by
      intro src hsrc
      rw [rollingMean_getD]
      by_cases hc : i < src.length ∧ ¬(i + 1 < w)
      · right
        rw [if_pos hc]
        have : (rwindow w i src).sum = 0 :=
          List.sum_eq_zero fun x hx => hsrc x (mem_of_mem_rwindow hx)
        rw [this]
        simp
      · left
        rw [if_neg hc]
    rcases hzero (gainSrc (List.replicate n c)) (src_replicate_zero n c).1 with hg | hg <;>
      rcases hzero (lossSrc (List.replicate n c)) (src_replicate_zero n c).2 with hl | hl <;>
        (rw [hg, hl]; try simp)
  have h := List.eq_replicate_of_mem hmem
  simpa using h

/-- Claim C2: every defined RSI value of the pure fallback lies in
[0, 100]; but on a strictly constant series every RSI cell is undefined
(`0/0` is `NaN`), so the RSI does not converge to 50 there — although
the repository's own test `test_constant_prices` asserts it does.  The
second conjunct evaluates the code at the failing input
`[100] * 50`. -/
theorem C2_rsi_spec :
    (∀ (closes : List ℚ) (period i : ℕ) (v : ℚ),
      (calculate_rsi closes period).getD i none = some v → 0 ≤ v ∧ v ≤ 100) ∧
    calculate_rsi (List.replicate 50 100) 14 = List.replicate 50 none := by
  constructor
  · intro closes period i v h
    rw [calculate_rsi, range_map_getD] at h
    by_cases hn : i < closes.length
    · rw [if_pos hn] at h
      rcases hg : (rollingMean period (gainSrc closes)).getD i none with _ | g
      · rw [hg] at h
        exact absurd h (by simp)
      rcases hl : (rollingMean period (lossSrc closes)).getD i none with _ | l
      · rw [hg, hl] at h
        exact absurd h (by simp)
      rw [hg, hl] at h
      dsimp only at h
      have hg0 : 0 ≤ g := rollingMean_nonneg (gainSrc_nonneg closes) hg
      have hl0 : 0 ≤ l := rollingMean_nonneg (lossSrc_nonneg closes) hl
      by_cases hzz : g = 0 ∧ l = 0
      · rw [if_pos hzz] at h
        exact absurd h (by simp)
      · rw [if_neg hzz] at h
        by_cases hlz : l = 0
        · rw [if_pos hlz] at h
          have : v = 100 := (Option.some_inj.mp h).symm
          rw [this]
          norm_num
        · rw [if_neg hlz] at h
          have hv : v = 100 - 100 / (1 + g / l) := (Option.some_inj.mp h).symm
          have hlpos : 0 < l := lt_of_le_of_ne hl0 (Ne.symm hlz)
          have hrs : 0 ≤ g / l := div_nonneg hg0 (le_of_lt hlpos)
          have hone : (1 : ℚ) ≤ 1 + g / l := by linarith
          have hdivpos : 0 ≤ 100 / (1 + g / l) := by positivity
          have hdivle : 100 / (1 + g / l) ≤ 100 := div_le_self (by norm_num) hone
          constructor <;> [linarith; linarith]
    · rw [if_neg hn] at h
      exact absurd h (by simp)
  · exact calculate_rsi_replicate 50 14 100

/-- Claim C2, witness: a defined RSI cell (series `[1, 2]`, period 1)
equals 100 and indeed lies in [0, 100]. -/
theorem C2_witness :
    (calculate_rsi [1, 2] 1).getD 1 none = some 100 ∧
    (0 : ℚ) ≤ 100 ∧ (100 : ℚ) ≤ 100 := by
  have hg1 : (rollingMean 1 (gainSrc [1, 2])).getD 1 none = some 1 := by
    rw [rollingMean_getD]
    norm_num [gainSrc, List.range_succ, rwindow]
  have hl1 : (rollingMean 1 (lossSrc [1, 2])).getD 1 none = some 0 := by
    rw [rollingMean_getD]
    norm_num [lossSrc, List.range_succ, rwindow]
  have hval : (calculate_rsi [1, 2] 1).getD 1 none = some 100 := by
    rw [calculate_rsi, range_map_getD, if_pos (by norm_num), hg1, hl1]
    norm_num
  exact ⟨hval, C2_rsi_spec.1 [1, 2] 1 1 100 hval⟩

/-- Claim C9: wherever the pure Bollinger fallback yields defined bands,
`upper ≥ middle ≥ lower` (the standard deviation is a square root, hence
nonnegative, and the default width 2 — any nonnegative width — scales
it). -/
theorem C9_bollinger_spec (xs : List ℚ) (period : ℕ) (sd : ℚ) (hsd : 0 ≤ sd) (i : ℕ)
    (u : ℝ) (m : ℚ) (l : ℝ)
    (hu : (calculate_bollinger_bands xs period sd).1.getD i none = some u)
    (hm : (calculate_bollinger_bands xs period sd).2.1.getD i none = some m)
    (hl : (calculate_bollinger_bands xs period sd).2.2.getD i none = some l) :
    l ≤ (m : ℝ) ∧ (m : ℝ) ≤ u := by
  rw [calculate_bollinger_bands] at hu hm hl
  dsimp only at hu hm hl
  rw [bollUpper, range_map_getD] at hu
  rw [bollLower, range_map_getD] at hl
  by_cases hn : i < xs.length
  · rw [if_pos hn] at hu hl
    rcases hmm : (rollingMean period xs).getD i none with _ | m'
    · rw [hmm] at hu
      exact absurd hu (by simp)
    rcases hvv : (rollingVar period xs).getD i none with _ | v
    · rw [hmm, hvv] at hu
      exact absurd hu (by simp)
    rw [hmm, hvv] at hu hl
    dsimp only at hu hl
    have hm' : m' = m := by
      rw [hmm] at hm
      exact Option.some_inj.mp hm
    have hu' : u = (m : ℝ) + (sd : ℝ) * Real.sqrt (v : ℝ) := by
      rw [← Option.some_inj, ← hu, hm']
    have hl' : l = (m : ℝ) - (sd : ℝ) * Real.sqrt (v : ℝ) := by
      rw [← Option.some_inj, ← hl, hm']
    have hs : 0 ≤ (sd : ℝ) * Real.sqrt (v : ℝ) :=
      mul_nonneg (by exact_mod_cast hsd) (Real.sqrt_nonneg _)
    rw [hu', hl']
    constructor <;> linarith
  · rw [if_neg hn] at hu
    exact absurd hu (by simp)

/-- Claim C9, witness: on the constant series `[1, 1]` with period 2 and
width 2 the three bands at index 1 all equal 1 and are ordered. -/
theorem C9_witness :
    ((1 : ℝ) ≤ ((1 : ℚ) : ℝ)) ∧ (((1 : ℚ) : ℝ) ≤ (1 : ℝ)) := by
  have hmean : (rollingMean 2 [1, 1]).getD 1 none = some 1 := by
    rw [rollingMean_getD]
    norm_num [rwindow]
  have hvar : (rollingVar 2 [1, 1]).getD 1 none = some 0 := by
    rw [rollingVar, range_map_getD]
    norm_num [rwindow]
  have hu : (calculate_bollinger_bands [1, 1] 2 2).1.getD 1 none = some 1 := by
    rw [calculate_bollinger_bands]
    dsimp only
    rw [bollUpper, range_map_getD, if_pos (by norm_num), hmean, hvar]
    norm_num
  have hm : (calculate_bollinger_bands [1, 1] 2 2).2.1.getD 1 none = some 1 := by
    rw [calculate_bollinger_bands]
    dsimp only
    exact hmean
  have hl : (calculate_bollinger_bands [1, 1] 2 2).2.2.getD 1 none = some 1 := by
    rw [calculate_bollinger_bands]
    dsimp only
    rw [bollLower, range_map_getD, if_pos (by norm_num), hmean, hvar]
    norm_num
  exact C9_bollinger_spec [1, 1] 2 2 (by norm_num) 1 1 1 1 hu hm hl

/-- Unfolding of one `ewm` step. -/
theorem ewmAux_cons (a : ℚ) (x : Option ℚ) (rest : List (Option ℚ)) (acc : ℚ × ℚ) :
    ewmAux a (x :: rest) acc =
      (if (ewmStep a acc x).2 = 0 then none
       else some ((ewmStep a acc x).1 / (ewmStep a acc x).2)) ::
        ewmAux a rest (ewmStep a acc x) := rfl

/-- The exponentially weighted mean is a convex combination: with decay
factor `1 − a ≥ 0` and all defined inputs in `[lo, hi]`, every defined
output stays in `[lo, hi]`.  The accumulator invariant is
`lo · weight ≤ numerator ≤ hi · weight` with nonnegative weight. -/
theorem ewmAux_bounds (a lo hi : ℚ) (hb : 0 ≤ 1 - a) :
    ∀ (xs : List (Option ℚ)) (acc : ℚ × ℚ),
      0 ≤ acc.2 → lo * acc.2 ≤ acc.1 → acc.1 ≤ hi * acc.2 →
      (∀ v : ℚ, some v ∈ xs → lo ≤ v ∧ v ≤ hi) →
      ∀ v : ℚ, some v ∈ ewmAux a xs acc → lo ≤ v ∧ v ≤ hi := by
  intro xs
  induction xs with
  | nil =>
    intro acc _ _ _ _ v hv
    simp [ewmAux] at hv
  | cons x rest ih =>
    intro acc hd hlo hhi hmem v hv
    rw [ewmAux_cons] at hv
    have hstep : 0 ≤ (ewmStep a acc x).2 ∧
        lo * (ewmStep a acc x).2 ≤ (ewmStep a acc x).1 ∧
        (ewmStep a acc x).1 ≤ hi * (ewmStep a acc x).2 := by
      rcases x with _ | v0
      · dsimp [ewmStep]
        refine ⟨mul_nonneg hb hd, ?_, ?_⟩
        · calc lo * ((1 - a) * acc.2) = (1 - a) * (lo * acc.2) := by ring
            _ ≤ (1 - a) * acc.1 := mul_le_mul_of_nonneg_left hlo hb
        · calc (1 - a) * acc.1 ≤ (1 - a) * (hi * acc.2) := mul_le_mul_of_nonneg_left hhi hb
            _ = hi * ((1 - a) * acc.2) := by ring
      · have hv0 := hmem v0 (by simp)
        dsimp [ewmStep]
        refine ⟨add_nonneg (mul_nonneg hb hd) zero_le_one, ?_, ?_⟩
        · calc lo * ((1 - a) * acc.2 + 1) = (1 - a) * (lo * acc.2) + lo := by ring
            _ ≤ (1 - a) * acc.1 + v0 :=
              add_le_add (mul_le_mul_of_nonneg_left hlo hb) hv0.1
        · calc (1 - a) * acc.1 + v0 ≤ (1 - a) * (hi * acc.2) + hi :=
              add_le_add (mul_le_mul_of_nonneg_left hhi hb) hv0.2
            _ = hi * ((1 - a) * acc.2 + 1) := by ring
    rcases List.mem_cons.mp hv with h1 | h1
    · by_cases hz : (ewmStep a acc x).2 = 0
      · rw [if_pos hz] at h1
        exact absurd h1.symm (by simp)
      · rw [if_neg hz] at h1
        have hvv : v = (ewmStep a acc x).1 / (ewmStep a acc x).2 := Option.some_inj.mp h1
        have hdenpos : 0 < (ewmStep a acc x).2 := lt_of_le_of_ne hstep.1 (Ne.symm hz)
        constructor
        · rw [hvv, le_div_iff₀ hdenpos]
          exact hstep.2.1
        · rw [hvv, div_le_iff₀ hdenpos]
          calc (ewmStep a acc x).1 ≤ hi * (ewmStep a acc x).2 := hstep.2.2
            _ = hi * (ewmStep a acc x).2 := rfl
    · exact ih (ewmStep a acc x) hstep.1 hstep.2.1 hstep.2.2
        (fun w hw => hmem w (List.mem_cons_of_mem _ hw)) v h1

/-- `ewmMean` keeps defined values inside any interval containing the
defined inputs. -/
theorem ewmMean_bounds (a lo hi : ℚ) (hb : 0 ≤ 1 - a) (xs : List (Option ℚ))
    (hmem : ∀ v : ℚ, some v ∈ xs → lo ≤ v ∧ v ≤ hi) :
    ∀ v : ℚ, some v ∈ ewmMean a xs → lo ≤ v ∧ v ≤ hi :=
  ewmAux_bounds a lo hi hb xs (0, 0) le_rfl (by simp) (by simp) hmem

/-- A defined `List.min?` is a lower bound of the list. -/
theorem listMin?_le {xs : List ℚ} {a b : ℚ} (h : xs.min? = some a) (hb : b ∈ xs) : a ≤ b :=
  (List.le_min?_iff (fun _ _ _ => le_min_iff) h).1 (le_refl a) b hb

/-- A defined `List.max?` is an upper bound of the list. -/
theorem listLe_max? {xs : List ℚ} {a b : ℚ} (h : xs.max? = some a) (hb : b ∈ xs) : b ≤ a :=
  (List.max?_le_iff (fun _ _ _ => max_le_iff) h).1 (le_refl a) b hb

/-- The bar at index `i` belongs to the rolling window ending at `i`. -/
theorem getD_mem_rwindow {w i : ℕ} {xs : List ℚ} (hw : 1 ≤ w) (hiw : w ≤ i + 1)
    (hi : i < xs.length) : xs.getD i 0 ∈ rwindow w i xs := by
  rw [rwindow]
  apply List.getElem?_mem (n := w - 1)
  rw [List.getElem?_drop]
  rw [show i + 1 - w + (w - 1) = i by omega]
  rw [List.getElem?_take_of_lt (by omega)]
  rw [List.getElem?_eq_getElem hi, List.getD_eq_getElem?_getD, List.getElem?_eq_getElem hi]
  rfl

/-- Closed form of one rolling-minimum cell. -/
theorem rollingMin_getD (w : ℕ) (xs : List ℚ) (i : ℕ) :
    (rollingMin w xs).getD i none =
      if i < xs.length ∧ ¬(i + 1 < w) then (rwindow w i xs).min? else none := by
  rw [rollingMin, range_map_getD]
  by_cases h1 : i < xs.length
  · by_cases h2 : i + 1 < w
    · simp [h1, h2]
    · simp [h1, h2]
  · simp [h1]

/-- Closed form of one rolling-maximum cell. -/
theorem rollingMax_getD (w : ℕ) (xs : List ℚ) (i : ℕ) :
    (rollingMax w xs).getD i none =
      if i < xs.length ∧ ¬(i + 1 < w) then (rwindow w i xs).max? else none := by
  rw [rollingMax, range_map_getD]
  by_cases h1 : i < xs.length
  · by_cases h2 : i + 1 < w
    · simp [h1, h2]
    · simp [h1, h2]
  · simp [h1]

/-- With well-formed bars (`low ≤ close ≤ high` pointwise) every defined
RSV value lies in [0, 100]. -/
theorem rsv_bounds (high low close : List ℚ) (w : ℕ)
    (hlc : ∀ i < close.length, low.getD i 0 ≤ close.getD i 0)
    (hch : ∀ i < close.length, close.getD i 0 ≤ high.getD i 0) :
    ∀ v : ℚ, some v ∈ rsvList high low close w → 0 ≤ v ∧ v ≤ 100 := by
  intro v hv
  rw [rsvList] at hv
  obtain ⟨i, hirange, hmatch⟩ := List.mem_map.mp hv
  rw [List.mem_range] at hirange
  rcases hmin : (rollingMin w low).getD i none with _ | ll
  · rw [hmin] at hmatch
    exact absurd hmatch (by simp)
  rcases hmax : (rollingMax w high).getD i none with _ | hh
  · rw [hmin, hmax] at hmatch
    exact absurd hmatch (by simp)
  rw [hmin, hmax] at hmatch
  dsimp only at hmatch
  by_cases heq : hh = ll
  · rw [if_pos heq] at hmatch
    exact absurd hmatch (by simp)
  rw [if_neg heq] at hmatch
  have hv' : v = (close.getD i 0 - ll) / (hh - ll) * 100 := (Option.some_inj.mp hmatch).symm
  rw [rollingMin_getD] at hmin
  rw [rollingMax_getD] at hmax
  have hcondl : i < low.length ∧ ¬(i + 1 < w) := by
    by_contra hc
    rw [if_neg hc] at hmin
    exact absurd hmin (by simp)
  have hcondh : i < high.length ∧ ¬(i + 1 < w) := by
    by_contra hc
    rw [if_neg hc] at hmax
    exact absurd hmax (by simp)
  rw [if_pos hcondl] at hmin
  rw [if_pos hcondh] at hmax
  have hw1 : 1 ≤ w := by
    by_contra hw0
    have hzero : w = 0 := by omega
    subst hzero
    rw [rwindow] at hmin
    rw [List.drop_eq_nil_of_le (by simp [List.length_take])] at hmin
    exact absurd hmin (by simp)
  have hwle : w ≤ i + 1 := by omega
  have h1 : ll ≤ low.getD i 0 := listMin?_le hmin (getD_mem_rwindow hw1 hwle hcondl.1)
  have h2 : high.getD i 0 ≤ hh := listLe_max? hmax (getD_mem_rwindow hw1 hwle hcondh.1)
  have h3 : ll ≤ close.getD i 0 := le_trans h1 (hlc i hirange)
  have h4 : close.getD i 0 ≤ hh := le_trans (hch i hirange) h2
  have hpos : 0 < hh - ll := by
    rcases lt_or_eq_of_le (le_trans h3 h4) with h | h
    · linarith
    · exact absurd h.symm heq
  rw [hv']
  constructor
  · exact mul_nonneg (div_nonneg (by linarith) (le_of_lt hpos)) (by norm_num)
  · have hdle : (close.getD i 0 - ll) / (hh - ll) ≤ 1 := by
      rw [div_le_one₀ hpos]
      linarith
    calc (close.getD i 0 - ll) / (hh - ll) * 100 ≤ 1 * 100 :=
        mul_le_mul_of_nonneg_right hdle (by norm_num)
      _ = 100 := one_mul 100

/-- The `ewm` decay factor `1 − 1/n` is nonnegative for every natural
smoothing period. -/
theorem one_sub_inv_nat_nonneg (n : ℕ) : 0 ≤ 1 - 1 / (n : ℚ) := by
  rcases Nat.eq_zero_or_pos n with h | h
  · simp [h]
  · have h1 : (1 : ℚ) ≤ (n : ℚ) := by exact_mod_cast h
    have : 1 / (n : ℚ) ≤ 1 := by
      rw [div_le_one₀ (by exact_mod_cast h)]
      exact h1
    linarith

/-- Claim C5, counterexample: with no relation assumed between high, low
and close, a close far above the high/low range (constant highs 1, lows
0, closes 10) makes the defined K value at index 8 equal 1000, far
outside [0, 100]. -/
theorem C5_counterexample :
    (calculate_kdj [1, 1, 1, 1, 1, 1, 1, 1, 1] [0, 0, 0, 0, 0, 0, 0, 0, 0]
      [10, 10, 10, 10, 10, 10, 10, 10, 10] 9 3 3).1.getD 8 none = some 1000 ∧
    ¬((1000 : ℚ) ≤ 100) := by
  have hrsv : rsvList [1, 1, 1, 1, 1, 1, 1, 1, 1] [0, 0, 0, 0, 0, 0, 0, 0, 0]
      [10, 10, 10, 10, 10, 10, 10, 10, 10] 9 =
      [none, none, none, none, none, none, none, none, some 1000] := by
    rw [rsvList]
    rw [show ([10, 10, 10, 10, 10, 10, 10, 10, 10] : List ℚ).length = 9 from rfl]
    rw [show List.range 9 = [0, 1, 2, 3, 4, 5, 6, 7, 8] from rfl]
    simp only [List.map_cons, List.map_nil]
    simp only [rollingMin_getD, rollingMax_getD]
    norm_num [rwindow, List.min?_cons', List.max?_cons']
  constructor
  · rw [calculate_kdj]
    dsimp only
    rw [hrsv, ewmMean]
    norm_num [ewmAux, ewmStep]
  · norm_num

/-- Claim C5, amended: for well-formed bars (`low ≤ close ≤ high`
pointwise) every defined K value and every defined D value of the pure
KDJ fallback lies in [0, 100]: RSV is then bounded and both smoothings
are convex combinations. -/
theorem C5_kdj_spec (high low close : List ℚ) (k_period d_period j_period : ℕ)
    (hlc : ∀ i < close.length, low.getD i 0 ≤ close.getD i 0)
    (hch : ∀ i < close.length, close.getD i 0 ≤ high.getD i 0) :
    (∀ v : ℚ, some v ∈ (calculate_kdj high low close k_period d_period j_period).1 →
      0 ≤ v ∧ v ≤ 100) ∧
    (∀ v : ℚ, some v ∈ (calculate_kdj high low close k_period d_period j_period).2.1 →
      0 ≤ v ∧ v ≤ 100) := by
  have hkeq : (calculate_kdj high low close k_period d_period j_period).1 =
      ewmMean (1 / (d_period : ℚ)) (rsvList high low close k_period) := rfl
  have hdeq : (calculate_kdj high low close k_period d_period j_period).2.1 =
      ewmMean (1 / (j_period : ℚ))
        (ewmMean (1 / (d_period : ℚ)) (rsvList high low close k_period)) := rfl
  have hk : ∀ v : ℚ, some v ∈ ewmMean (1 / (d_period : ℚ))
      (rsvList high low close k_period) → 0 ≤ v ∧ v ≤ 100 :=
    ewmMean_bounds _ 0 100 (one_sub_inv_nat_nonneg d_period) _
      (rsv_bounds high low close k_period hlc hch)
  have hd : ∀ v : ℚ, some v ∈ ewmMean (1 / (j_period : ℚ))
      (ewmMean (1 / (d_period : ℚ)) (rsvList high low close k_period)) →
      0 ≤ v ∧ v ≤ 100 :=
    ewmMean_bounds _ 0 100 (one_sub_inv_nat_nonneg j_period) _ hk
  constructor
  · intro v hv
    rw [hkeq] at hv
    exact hk v hv
  · intro v hv
    rw [hdeq] at hv
    exact hd v hv

/-- Claim C5, witness: the well-formed one-bar series high 1, low 0,
close 1/2 yields K = 50, inside [0, 100]. -/
theorem C5_witness :
    (calculate_kdj [1] [0] [1 / 2] 1 3 3).1 = [some 50] ∧
    (0 ≤ (50 : ℚ) ∧ (50 : ℚ) ≤ 100) := by
  have hrsv : rsvList [1] [0] [1 / 2] 1 = [some 50] := by
    rw [rsvList]
    rw [show ([1 / 2] : List ℚ).length = 1 from rfl, show List.range 1 = [0] from rfl]
    simp only [List.map_cons, List.map_nil, rollingMin_getD, rollingMax_getD]
    norm_num [rwindow, List.min?_cons', List.max?_cons']
  have hcell : (calculate_kdj [1] [0] [1 / 2] 1 3 3).1 = [some 50] := by
    show ewmMean (1 / ((3 : ℕ) : ℚ)) (rsvList [1] [0] [1 / 2] 1) = [some 50]
    rw [hrsv, ewmMean]
    norm_num [ewmAux, ewmStep]
  refine ⟨hcell, ?_⟩
  refine (C5_kdj_spec [1] [0] [1 / 2] 1 3 3 ?_ ?_).1 50 (by rw [hcell]; simp)
  · intro i hi
    have h0 : i = 0 := by
      simpa using hi
    subst h0
    norm_num
  · intro i hi
    have h0 : i = 0 := by
      simpa using hi
    subst h0
    norm_num

/-- Claim C4: in any bar series where `close[i] < close[i-4]` holds for
the 9 consecutive bars `i = 4, …, 12`, the Setup detector marks
buy-setup-complete exactly at bar 12 (the 9th qualifying bar) and at no
earlier bar; its running buy counter is reset to 0 there; and if the
condition still holds at bar 13 the recorded count restarts at 1
instead of continuing past 9. -/
theorem C4_td_setup_spec {α : Type} [LinearOrder α]
    (c0 c1 c2 c3 c4 c5 c6 c7 c8 c9 c10 c11 c12 : α) (rest : List α)
    (h4 : c4 < c0) (h5 : c5 < c1) (h6 : c6 < c2) (h7 : c7 < c3) (h8 : c8 < c4)
    (h9 : c9 < c5) (h10 : c10 < c6) (h11 : c11 < c7) (h12 : c12 < c8) :
    (calculate_td_setup (c0 :: c1 :: c2 :: c3 :: c4 :: c5 :: c6 :: c7 :: c8 :: c9 ::
        c10 :: c11 :: c12 :: rest))[12]? = some ⟨9, 0, true, false⟩ ∧
    (∀ j < 12, ∀ r : SetupRow,
      (calculate_td_setup (c0 :: c1 :: c2 :: c3 :: c4 :: c5 :: c6 :: c7 :: c8 :: c9 ::
        c10 :: c11 :: c12 :: rest))[j]? = some r → r.td_setup_buy_complete = false) ∧
    td_setup_final_counts
      [c0, c1, c2, c3, c4, c5, c6, c7, c8, c9, c10, c11, c12] = (0, 0) ∧
    (∀ (x : α) (rest2 : List α), rest = x :: rest2 → x < c9 →
      (calculate_td_setup (c0 :: c1 :: c2 :: c3 :: c4 :: c5 :: c6 :: c7 :: c8 :: c9 ::
        c10 :: c11 :: c12 :: rest))[13]? = some ⟨1, 0, false, false⟩) := by
  have hrows : calculate_td_setup (c0 :: c1 :: c2 :: c3 :: c4 :: c5 :: c6 :: c7 :: c8 ::
      c9 :: c10 :: c11 :: c12 :: rest) =
      ⟨0, 0, false, false⟩ :: ⟨0, 0, false, false⟩ :: ⟨0, 0, false, false⟩ ::
      ⟨0, 0, false, false⟩ :: ⟨1, 0, false, false⟩ :: ⟨2, 0, false, false⟩ ::
      ⟨3, 0, false, false⟩ :: ⟨4, 0, false, false⟩ :: ⟨5, 0, false, false⟩ ::
      ⟨6, 0, false, false⟩ :: ⟨7, 0, false, false⟩ :: ⟨8, 0, false, false⟩ ::
      ⟨9, 0, true, false⟩ ::
      (setupRun (List.zipWith Prod.mk rest (c9 :: c10 :: c11 :: c12 :: rest)) 0 0 9 0).1 := by
    rw [calculate_td_setup]
    have hm : min 4 (c0 :: c1 :: c2 :: c3 :: c4 :: c5 :: c6 :: c7 :: c8 :: c9 :: c10 ::
        c11 :: c12 :: rest).length = 4 := by
      simp only [List.length_cons]
      omega
    rw [hm]
    simp [setupRun, setupStep, h4, h5, h6, h7, h8, h9, h10, h11, h12, List.replicate]
  refine ⟨?_, ?_, ?_, ?_⟩
  · rw [hrows]
    simp
  · intro j hj r hr
    rw [hrows] at hr
    interval_cases j <;> simp at hr <;> simp [← hr]
  · rw [td_setup_final_counts]
    simp [setupRun, setupStep, h4, h5, h6, h7, h8, h9, h10, h11, h12]
  · intro x rest2 hrest hx
    subst hrest
    rw [hrows]
    simp [setupRun, setupStep, hx]

/-- Claim C4, witness: on the strictly decreasing integer series
`100, 99, …, 88` followed by `50`, buy-setup completes exactly at bar
12, the counter state is 0 after bar 12, and bar 13 (where the
condition still holds) restarts the count at 1. -/
theorem C4_witness :
    (calculate_td_setup
      ([100, 99, 98, 97, 96, 95, 94, 93, 92, 91, 90, 89, 88, 50] : List ℤ))[12]? =
      some ⟨9, 0, true, false⟩ ∧
    td_setup_final_counts
      ([100, 99, 98, 97, 96, 95, 94, 93, 92, 91, 90, 89, 88] : List ℤ) = (0, 0) ∧
    (calculate_td_setup
      ([100, 99, 98, 97, 96, 95, 94, 93, 92, 91, 90, 89, 88, 50] : List ℤ))[13]? =
      some ⟨1, 0, false, false⟩ := by
  have h := C4_td_setup_spec (α := ℤ) 100 99 98 97 96 95 94 93 92 91 90 89 88 [50]
    (by decide) (by decide) (by decide) (by decide) (by decide) (by decide) (by decide)
    (by decide) (by decide)
  exact ⟨h.1, h.2.2.1, h.2.2.2 50 [] rfl (by decide)⟩

/-- Claim C10, counterexample: from an invariant-satisfying registry
(one connection subscribed to one stock), a broadcast whose send to that
connection fails discards it from the subscriber set but never deletes
the dictionary key, leaving the code mapped to an empty subscriber set —
the registry invariant is not preserved by the broadcast cleanup
path. -/
theorem C10_counterexample :
    RegistryInv ⟨["c1"], [("c1", [Topic.stock "A"])], [("A", ["c1"])], [], []⟩ ∧
    ¬ RegistryInv (broadcast_to_stock
      ⟨["c1"], [("c1", [Topic.stock "A"])], [("A", ["c1"])], [], []⟩ "A" ["c1"]) := by
  decide


/-- Dict lookup on a cons cell. -/
theorem alistGet?_cons {β : Type} (a : String × β) (l : List (String × β)) (q : String) :
    alistGet? (a :: l) q = if a.1 = q then some a.2 else alistGet? l q := by
  by_cases h : a.1 = q
  · rw [alistGet?, List.find?_cons_of_pos _ (by simp [h]), if_pos h]
    rfl
  · rw [alistGet?, List.find?_cons_of_neg _ (by simp [h]), if_neg h]
    rfl

/-- `dict[k] = v` on a cons cell. -/
theorem alistSet_cons {β : Type} (a : String × β) (l : List (String × β)) (k : String)
    (v : β) :
    alistSet (a :: l) k v = if a.1 = k then alistSet l k v else a :: alistSet l k v := by
  rw [alistSet, List.filter_cons]
  by_cases h : a.1 = k
  · rw [if_neg (by simp [h]), if_pos h, alistSet]
  · rw [if_pos (by simp [h]), if_neg h, alistSet]
    rfl

/-- Value update on a cons cell. -/
theorem alistUpdate_cons {β : Type} (a : String × β) (l : List (String × β)) (k : String)
    (f : β → β) :
    alistUpdate (a :: l) k f =
      (if a.1 = k then (a.1, f a.2) else a) :: alistUpdate l k f := rfl

/-- `del dict[k]` on a cons cell. -/
theorem alistDelete_cons {β : Type} (a : String × β) (l : List (String × β)) (k : String) :
    alistDelete (a :: l) k =
      if a.1 = k then alistDelete l k else a :: alistDelete l k := by
  rw [alistDelete, List.filter_cons]
  by_cases h : a.1 = k
  · rw [if_neg (by simp [h]), if_pos h, alistDelete]
  · rw [if_pos (by simp [h]), if_neg h, alistDelete]

/-- Dict lookup after `dict[k] = v`, same key. -/
theorem alistGet?_set_self {β : Type} (l : List (String × β)) (k : String) (v : β) :
    alistGet? (alistSet l k v) k = some v := by
  induction l with
  | nil =>
    rw [show alistSet ([] : List (String × β)) k v = [(k, v)] from rfl, alistGet?_cons,
      if_pos rfl]
  | cons a l ih =>
    rw [alistSet_cons]
    by_cases h : a.1 = k
    · rw [if_pos h]
      exact ih
    · rw [if_neg h, alistGet?_cons, if_neg h]
      exact ih

/-- Dict lookup after `dict[k] = v`, other key. -/
theorem alistGet?_set_ne {β : Type} (l : List (String × β)) (k q : String) (v : β)
    (h : q ≠ k) : alistGet? (alistSet l k v) q = alistGet? l q := by
  induction l with
  | nil =>
    rw [show alistSet ([] : List (String × β)) k v = [(k, v)] from rfl, alistGet?_cons,
      if_neg (Ne.symm h)]
  | cons a l ih =>
    rw [alistSet_cons]
    by_cases hak : a.1 = k
    · rw [if_pos hak, ih, alistGet?_cons,
        if_neg (by rw [hak]; exact Ne.symm h)]
    · rw [if_neg hak, alistGet?_cons, alistGet?_cons, ih]

/-- Dict lookup after an in-place value update, same key. -/
theorem alistGet?_update_self {β : Type} (l : List (String × β)) (k : String) (f : β → β) :
    alistGet? (alistUpdate l k f) k = (alistGet? l k).map f := by
  induction l with
  | nil => rfl
  | cons a l ih =>
    rw [alistUpdate_cons]
    by_cases h : a.1 = k
    · rw [if_pos h, alistGet?_cons]
      rw [show ((a.1, f a.2) : String × β).1 = a.1 from rfl, if_pos h, alistGet?_cons,
        if_pos h]
      rfl
    · rw [if_neg h, alistGet?_cons, if_neg h, alistGet?_cons, if_neg h, ih]

/-- Dict lookup after an in-place value update, other key. -/
theorem alistGet?_update_ne {β : Type} (l : List (String × β)) (k q : String) (f : β → β)
    (h : q ≠ k) : alistGet? (alistUpdate l k f) q = alistGet? l q := by
  induction l with
  | nil => rfl
  | cons a l ih =>
    rw [alistUpdate_cons]
    by_cases hak : a.1 = k
    · rw [if_pos hak, alistGet?_cons]
      rw [show ((a.1, f a.2) : String × β).1 = a.1 from rfl, hak,
        if_neg (Ne.symm h), alistGet?_cons, hak, if_neg (Ne.symm h), ih]
    · rw [if_neg hak, alistGet?_cons, alistGet?_cons, ih]

/-- Dict lookup after `del dict[k]`, same key. -/
theorem alistGet?_delete_self {β : Type} (l : List (String × β)) (k : String) :
    alistGet? (alistDelete l k) k = none := by
  induction l with
  | nil => rfl
  | cons a l ih =>
    rw [alistDelete_cons]
    by_cases h : a.1 = k
    · rw [if_pos h]
      exact ih
    · rw [if_neg h, alistGet?_cons, if_neg h]
      exact ih

/-- Dict lookup after `del dict[k]`, other key. -/
theorem alistGet?_delete_ne {β : Type} (l : List (String × β)) (k q : String)
    (h : q ≠ k) : alistGet? (alistDelete l k) q = alistGet? l q := by
  induction l with
  | nil => rfl
  | cons a l ih =>
    rw [alistDelete_cons]
    by_cases hak : a.1 = k
    · rw [if_pos hak, ih, alistGet?_cons, hak, if_neg (Ne.symm h)]
    · rw [if_neg hak, alistGet?_cons, alistGet?_cons, ih]

/-- A successful dict lookup exhibits a stored pair. -/
theorem alistGet?_some_mem {β : Type} {l : List (String × β)} {k : String} {v : β}
    (h : alistGet? l k = some v) : ∃ p ∈ l, p.1 = k ∧ p.2 = v := by
  rw [alistGet?] at h
  rcases hf : l.find? (fun p => p.1 = k) with _ | p
  · rw [hf] at h
    exact absurd h (by simp)
  · rw [hf] at h
    refine ⟨p, List.mem_of_find?_eq_some hf, ?_, ?_⟩
    · have := List.find?_some hf
      simpa using this
    · simpa using h

/-- Keys of pairs stored after `dict[k] = v`. -/
theorem mem_alistSet_key {β : Type} {l : List (String × β)} {k : String} {v : β}
    {p : String × β} (h : p ∈ alistSet l k v) : p.1 = k ∨ p ∈ l := by
  rw [alistSet] at h
  rcases List.mem_append.mp h with h1 | h1
  · exact Or.inr (List.mem_filter.mp h1).1
  · left
    rw [List.mem_singleton.mp h1]

/-- Keys of pairs stored after an in-place value update. -/
theorem mem_alistUpdate_key {β : Type} {l : List (String × β)} {k : String} {f : β → β}
    {p : String × β} (h : p ∈ alistUpdate l k f) : ∃ q ∈ l, p.1 = q.1 := by
  rw [alistUpdate] at h
  obtain ⟨q, hq, hpq⟩ := List.mem_map.mp h
  refine ⟨q, hq, ?_⟩
  by_cases hk : q.1 = k
  · rw [← hpq, if_pos hk]
  · rw [← hpq, if_neg hk]

/-- Pairs surviving `del dict[k]` were stored before. -/
theorem mem_alistDelete {β : Type} {l : List (String × β)} {k : String}
    {p : String × β} (h : p ∈ alistDelete l k) : p ∈ l ∧ p.1 ≠ k := by
  rw [alistDelete] at h
  have h1 := List.mem_filter.mp h
  exact ⟨h1.1, by simpa using h1.2⟩

/-- Membership in a Python-set add. -/
theorem mem_setAdd {α : Type} [DecidableEq α] {l : List α} {x y : α} :
    x ∈ setAdd l y ↔ x ∈ l ∨ x = y := by
  rw [setAdd]
  by_cases h : y ∈ l
  · rw [if_pos h]
    constructor
    · exact Or.inl
    · rintro (hx | rfl)
      · exact hx
      · exact h
  · rw [if_neg h]
    simp

/-- Membership in a Python-set discard. -/
theorem mem_setDiscard {α : Type} [DecidableEq α] {l : List α} {x y : α} :
    x ∈ setDiscard l y ↔ x ∈ l ∧ x ≠ y := by
  rw [setDiscard]
  constructor
  · intro h
    have h1 := List.mem_filter.mp h
    exact ⟨h1.1, by simpa using h1.2⟩
  · intro h
    exact List.mem_filter.mpr ⟨h.1, by simpa using h.2⟩

/-- A Python-set add is never empty. -/
theorem setAdd_ne_nil {α : Type} [DecidableEq α] (l : List α) (y : α) :
    setAdd l y ≠ [] := by
  rw [setAdd]
  by_cases h : y ∈ l
  · rw [if_pos h]
    intro hnil
    rw [hnil] at h
    exact absurd h (List.not_mem_nil y)
  · rw [if_neg h]
    simp

/-- Lookup in `stockDiscard`, same code: the stored set loses `id`, and
the key disappears when that leaves it empty. -/
theorem stockDiscard_get_self (subs : List (String × List String)) (code id : String) :
    alistGet? (stockDiscard subs code id) code =
      match alistGet? subs code with
      | none => none
      | some ids =>
        if (setDiscard ids id).isEmpty then none else some (setDiscard ids id) := by
  rw [stockDiscard]
  rcases h : alistGet? subs code with _ | ids
  · exact h
  · dsimp only
    by_cases he : (setDiscard ids id).isEmpty
    · rw [if_pos he, if_pos he]
      exact alistGet?_delete_self _ _
    · rw [if_neg he, if_neg he, alistGet?_update_self, h]
      rfl

/-- Lookup in `stockDiscard`, other code. -/
theorem stockDiscard_get_ne (subs : List (String × List String)) (code id c : String)
    (h : c ≠ code) : alistGet? (stockDiscard subs code id) c = alistGet? subs c := by
  rw [stockDiscard]
  rcases hh : alistGet? subs code with _ | ids
  · rfl
  · dsimp only
    by_cases he : (setDiscard ids id).isEmpty
    · rw [if_pos he]
      exact alistGet?_delete_ne _ _ _ h
    · rw [if_neg he]
      exact alistGet?_update_ne _ _ _ _ h

/-- Keys of pairs stored after `stockDiscard`. -/
theorem mem_stockDiscard_key {subs : List (String × List String)} {code id : String}
    {p : String × List String} (h : p ∈ stockDiscard subs code id) :
    ∃ q ∈ subs, p.1 = q.1 := by
  rw [stockDiscard] at h
  rcases hh : alistGet? subs code with _ | ids <;> rw [hh] at h
  · exact ⟨p, h, rfl⟩
  · dsimp only at h
    by_cases he : (setDiscard ids id).isEmpty
    · rw [if_pos he] at h
      exact ⟨p, (mem_alistDelete h).1, rfl⟩
    · rw [if_neg he] at h
      exact mem_alistUpdate_key h

/-- `stockDiscard` only shrinks subscriber sets. -/
theorem stockDiscard_ids_subset {subs : List (String × List String)} {code id c x : String}
    (h : x ∈ (alistGet? (stockDiscard subs code id) c).getD []) :
    x ∈ (alistGet? subs c).getD [] := by
  by_cases hc : c = code
  · subst hc
    rw [stockDiscard_get_self] at h
    rcases hh : alistGet? subs c with _ | ids <;> rw [hh] at h
    · simp at h
    · dsimp only at h
      by_cases he : (setDiscard ids id).isEmpty
      · rw [if_pos he] at h
        simp at h
      · rw [if_neg he] at h
        exact (mem_setDiscard.mp h).1
  · rw [stockDiscard_get_ne _ _ _ _ hc] at h
    exact h

/-- `stockDiscard` removes `id` from the touched code's set. -/
theorem stockDiscard_removes {subs : List (String × List String)} {code id : String} :
    id ∉ (alistGet? (stockDiscard subs code id) code).getD [] := by
  rw [stockDiscard_get_self]
  rcases hh : alistGet? subs code with _ | ids
  · simp
  · dsimp only
    by_cases he : (setDiscard ids id).isEmpty
    · rw [if_pos he]
      simp
    · rw [if_neg he]
      intro hmem
      exact absurd rfl (mem_setDiscard.mp hmem).2

/-- `stockDiscard` never leaves a key mapped to an empty set. -/
theorem stockDiscard_inv4 {subs : List (String × List String)} {code id : String}
    (h4 : ∀ p ∈ subs, (alistGet? subs p.1).getD [] ≠ []) :
    ∀ p ∈ stockDiscard subs code id,
      (alistGet? (stockDiscard subs code id) p.1).getD [] ≠ [] := by
  intro p hp
  by_cases hc : p.1 = code
  · rw [hc, stockDiscard_get_self]
    rcases hh : alistGet? subs code with _ | ids
    · rw [stockDiscard] at hp
      rw [hh] at hp
      have := h4 p hp
      rw [hc, hh] at this
      exact absurd rfl this
    · dsimp only
      by_cases he : (setDiscard ids id).isEmpty
      · rw [stockDiscard] at hp
        rw [hh] at hp
        dsimp only at hp
        rw [if_pos he] at hp
        exact absurd hc (mem_alistDelete hp).2
      · rw [if_neg he]
        intro hnil
        rw [List.isEmpty_iff] at he
        exact he (by simpa using hnil)
  · rw [stockDiscard_get_ne _ _ _ _ hc]
    obtain ⟨q, hq, hpq⟩ := mem_stockDiscard_key hp
    rw [hpq]
    exact h4 q hq

/-- One cleanup step leaves connections and forward subscriptions
alone. -/
theorem cleanupTopic_frame (id : String) (st : CMState) (t : Topic) :
    (cleanupTopic id st t).active_connections = st.active_connections ∧
    (cleanupTopic id st t).subscriptions = st.subscriptions := by
  cases t <;> exact ⟨rfl, rfl⟩

/-- The whole cleanup fold leaves connections and forward subscriptions
alone. -/
theorem cleanupFold_frame (id : String) (topics : List Topic) :
    ∀ st : CMState,
      ((topics.foldl (cleanupTopic id) st).active_connections = st.active_connections ∧
       (topics.foldl (cleanupTopic id) st).subscriptions = st.subscriptions) := by
  induction topics with
  | nil =>
    intro st
    exact ⟨rfl, rfl⟩
  | cons t rest ih =>
    intro st
    rw [List.foldl_cons]
    obtain ⟨h1, h2⟩ := ih (cleanupTopic id st t)
    obtain ⟨g1, g2⟩ := cleanupTopic_frame id st t
    exact ⟨h1.trans g1, h2.trans g2⟩

/-- One cleanup step only shrinks stock subscriber sets. -/
theorem cleanupTopic_stock_subset (id : String) (st : CMState) (t : Topic) {c x : String}
    (h : x ∈ stockIdsOf (cleanupTopic id st t) c) : x ∈ stockIdsOf st c := by
  cases t with
  | stock code => exact stockDiscard_ids_subset h
  | market => exact h
  | nineTurn => exact h

/-- One cleanup step only shrinks the market subscriber set. -/
theorem cleanupTopic_market_subset (id : String) (st : CMState) (t : Topic) {x : String}
    (h : x ∈ (cleanupTopic id st t).market_subscribers) : x ∈ st.market_subscribers := by
  cases t with
  | stock code => exact h
  | market => exact (mem_setDiscard.mp h).1
  | nineTurn => exact h

/-- One cleanup step only shrinks the nine-turn subscriber set. -/
theorem cleanupTopic_nineTurn_subset (id : String) (st : CMState) (t : Topic) {x : String}
    (h : x ∈ (cleanupTopic id st t).nine_turn_subscribers) :
    x ∈ st.nine_turn_subscribers := by
  cases t with
  | stock code => exact h
  | market => exact h
  | nineTurn => exact (mem_setDiscard.mp h).1

/-- Stored stock pairs after one cleanup step keep pre-existing keys. -/
theorem cleanupTopic_stock_key (id : String) (st : CMState) (t : Topic)
    {p : String × List String} (h : p ∈ (cleanupTopic id st t).stock_subscribers) :
    ∃ q ∈ st.stock_subscribers, p.1 = q.1 := by
  cases t with
  | stock code => exact mem_stockDiscard_key h
  | market => exact ⟨p, h, rfl⟩
  | nineTurn => exact ⟨p, h, rfl⟩

/-- The cleanup fold only shrinks stock subscriber sets. -/
theorem cleanupFold_stock_subset (id : String) (topics : List Topic) :
    ∀ (st : CMState) (c x : String),
      x ∈ stockIdsOf (topics.foldl (cleanupTopic id) st) c → x ∈ stockIdsOf st c := by
  induction topics with
  | nil =>
    intro st c x h
    exact h
  | cons t rest ih =>
    intro st c x h
    rw [List.foldl_cons] at h
    exact cleanupTopic_stock_subset id st t (ih (cleanupTopic id st t) c x h)

/-- The cleanup fold only shrinks the market subscriber set. -/
theorem cleanupFold_market_subset (id : String) (topics : List Topic) :
    ∀ (st : CMState) (x : String),
      x ∈ (topics.foldl (cleanupTopic id) st).market_subscribers →
        x ∈ st.market_subscribers := by
  induction topics with
  | nil =>
    intro st x h
    exact h
  | cons t rest ih =>
    intro st x h
    rw [List.foldl_cons] at h
    exact cleanupTopic_market_subset id st t (ih (cleanupTopic id st t) x h)

/-- The cleanup fold only shrinks the nine-turn subscriber set. -/
theorem cleanupFold_nineTurn_subset (id : String) (topics : List Topic) :
    ∀ (st : CMState) (x : String),
      x ∈ (topics.foldl (cleanupTopic id) st).nine_turn_subscribers →
        x ∈ st.nine_turn_subscribers := by
  induction topics with
  | nil =>
    intro st x h
    exact h
  | cons t rest ih =>
    intro st x h
    rw [List.foldl_cons] at h
    exact cleanupTopic_nineTurn_subset id st t (ih (cleanupTopic id st t) x h)

/-- Stored stock pairs after the cleanup fold keep pre-existing keys. -/
theorem cleanupFold_stock_key (id : String) (topics : List Topic) :
    ∀ (st : CMState) (p : String × List String),
      p ∈ (topics.foldl (cleanupTopic id) st).stock_subscribers →
        ∃ q ∈ st.stock_subscribers, p.1 = q.1 := by
  induction topics with
  | nil =>
    intro st p h
    exact ⟨p, h, rfl⟩
  | cons t rest ih =>
    intro st p h
    rw [List.foldl_cons] at h
    obtain ⟨q, hq, hpq⟩ := ih (cleanupTopic id st t) p h
    obtain ⟨q2, hq2, hq2e⟩ := cleanupTopic_stock_key id st t hq
    exact ⟨q2, hq2, hpq.trans hq2e⟩

/-- After the cleanup fold, `id` is gone from the subscriber set of
every stock topic it held. -/
theorem cleanupFold_stock_removed (id : String) (topics : List Topic) :
    ∀ (st : CMState) (c : String), Topic.stock c ∈ topics →
      id ∉ stockIdsOf (topics.foldl (cleanupTopic id) st) c := by
  induction topics with
  | nil => simp
  | cons t rest ih =>
    intro st c hmem
    rw [List.foldl_cons]
    rcases List.mem_cons.mp hmem with h1 | h1
    · intro habs
      have hx := cleanupFold_stock_subset id rest (cleanupTopic id st t) c id habs
      rw [← h1] at hx
      exact stockDiscard_removes hx
    · exact ih (cleanupTopic id st t) c h1

/-- After the cleanup fold, `id` is gone from the market subscriber set
if it held the market topic. -/
theorem cleanupFold_market_removed (id : String) (topics : List Topic) :
    ∀ (st : CMState), Topic.market ∈ topics →
      id ∉ (topics.foldl (cleanupTopic id) st).market_subscribers := by
  induction topics with
  | nil => simp
  | cons t rest ih =>
    intro st hmem
    rw [List.foldl_cons]
    rcases List.mem_cons.mp hmem with h1 | h1
    · intro habs
      have hx := cleanupFold_market_subset id rest (cleanupTopic id st t) id habs
      rw [← h1] at hx
      exact absurd rfl (mem_setDiscard.mp hx).2
    · exact ih (cleanupTopic id st t) h1

/-- After the cleanup fold, `id` is gone from the nine-turn subscriber
set if it held the nine-turn topic. -/
theorem cleanupFold_nineTurn_removed (id : String) (topics : List Topic) :
    ∀ (st : CMState), Topic.nineTurn ∈ topics →
      id ∉ (topics.foldl (cleanupTopic id) st).nine_turn_subscribers := by
  induction topics with
  | nil => simp
  | cons t rest ih =>
    intro st hmem
    rw [List.foldl_cons]
    rcases List.mem_cons.mp hmem with h1 | h1
    · intro habs
      have hx := cleanupFold_nineTurn_subset id rest (cleanupTopic id st t) id habs
      rw [← h1] at hx
      exact absurd rfl (mem_setDiscard.mp hx).2
    · exact ih (cleanupTopic id st t) h1

/-- One cleanup step preserves "no code maps to an empty set". -/
theorem cleanupTopic_inv4 (id : String) (st : CMState) (t : Topic)
    (h4 : ∀ p ∈ st.stock_subscribers, stockIdsOf st p.1 ≠ []) :
    ∀ p ∈ (cleanupTopic id st t).stock_subscribers,
      stockIdsOf (cleanupTopic id st t) p.1 ≠ [] := by
  cases t with
  | stock code => exact stockDiscard_inv4 h4
  | market => exact h4
  | nineTurn => exact h4

/-- The cleanup fold preserves "no code maps to an empty set". -/
theorem cleanupFold_inv4 (id : String) (topics : List Topic) :
    ∀ st : CMState, (∀ p ∈ st.stock_subscribers, stockIdsOf st p.1 ≠ []) →
      ∀ p ∈ (topics.foldl (cleanupTopic id) st).stock_subscribers,
        stockIdsOf (topics.foldl (cleanupTopic id) st) p.1 ≠ [] := by
  induction topics with
  | nil =>
    intro st h4
    exact h4
  | cons t rest ih =>
    intro st h4
    rw [List.foldl_cons]
    exact ih (cleanupTopic id st t) (cleanupTopic_inv4 id st t h4)

/-- Core of the disconnect proof: removing a connection whose topic
memberships have already been cleaned keeps the registry invariant. -/
theorem disconnect_core (st st1 : CMState) (id : String) (hinv : RegistryInv st)
    (hfa : st1.active_connections = st.active_connections)
    (hfs : st1.subscriptions = st.subscriptions)
    (hssub : ∀ c x : String, x ∈ stockIdsOf st1 c → x ∈ stockIdsOf st c)
    (hskey : ∀ p ∈ st1.stock_subscribers, ∃ q ∈ st.stock_subscribers, p.1 = q.1)
    (hmsub : ∀ x : String, x ∈ st1.market_subscribers → x ∈ st.market_subscribers)
    (hnsub : ∀ x : String, x ∈ st1.nine_turn_subscribers → x ∈ st.nine_turn_subscribers)
    (hsrem : ∀ c : String, id ∉ stockIdsOf st1 c)
    (hmrem : id ∉ st1.market_subscribers)
    (hnrem : id ∉ st1.nine_turn_subscribers)
    (hinv4 : ∀ p ∈ st1.stock_subscribers, stockIdsOf st1 p.1 ≠ []) :
    RegistryInv { st1 with
      active_connections := setDiscard st1.active_connections id
      subscriptions := alistDelete st1.subscriptions id } := by
  obtain ⟨⟨h1a, h1b⟩, h2, ⟨h3m, h3n⟩, h4⟩ := hinv
  refine ⟨⟨?_, ?_⟩, ?_, ⟨?_, ?_⟩, ?_⟩
  · intro x hx
    obtain ⟨hx1, hx2⟩ := mem_setDiscard.mp hx
    show (alistGet? (alistDelete st1.subscriptions id) x).isSome = true
    rw [alistGet?_delete_ne _ _ _ hx2, hfs]
    rw [hfa] at hx1
    exact h1a x hx1
  · intro p hp
    obtain ⟨hp1, hp2⟩ := mem_alistDelete hp
    rw [hfs] at hp1
    show p.1 ∈ setDiscard st1.active_connections id
    refine mem_setDiscard.mpr ⟨?_, hp2⟩
    rw [hfa]
    exact h1b p hp1
  · intro p hp id' hid'
    have hp1 : p ∈ st1.stock_subscribers := hp
    have hid1 : id' ∈ stockIdsOf st1 p.1 := hid'
    have hne : id' ≠ id := fun he => hsrem p.1 (he ▸ hid1)
    show Topic.stock p.1 ∈ (alistGet? (alistDelete st1.subscriptions id) id').getD []
    rw [alistGet?_delete_ne _ _ _ hne, hfs]
    obtain ⟨q, hq, hpq⟩ := hskey p hp1
    have hid2 : id' ∈ stockIdsOf st q.1 := by
      rw [← hpq]
      exact hssub p.1 id' hid1
    have hres := h2 q hq id' hid2
    rw [hpq]
    exact hres
  · intro x hx
    have hx1 : x ∈ st1.market_subscribers := hx
    have hne : x ≠ id := fun he => hmrem (he ▸ hx1)
    show Topic.market ∈ (alistGet? (alistDelete st1.subscriptions id) x).getD []
    rw [alistGet?_delete_ne _ _ _ hne, hfs]
    exact h3m x (hmsub x hx1)
  · intro x hx
    have hx1 : x ∈ st1.nine_turn_subscribers := hx
    have hne : x ≠ id := fun he => hnrem (he ▸ hx1)
    show Topic.nineTurn ∈ (alistGet? (alistDelete st1.subscriptions id) x).getD []
    rw [alistGet?_delete_ne _ _ _ hne, hfs]
    exact h3n x (hnsub x hx1)
  · intro p hp
    exact hinv4 p hp

/-- `disconnect` preserves the registry invariant. -/
theorem disconnect_inv (st : CMState) (hinv : RegistryInv st) (id : String) :
    RegistryInv (disconnect st id) := by
  rw [disconnect]
  by_cases hact : id ∈ st.active_connections
  · rw [if_pos hact]
    rcases hlook : alistGet? st.subscriptions id with _ | topics
    · have hcl : cleanup_subscriptions st id = st := by
        rw [cleanup_subscriptions, hlook]
      rw [hcl]
      have hsrem : ∀ c : String, id ∉ stockIdsOf st c := by
        intro c hmem
        rw [stockIdsOf] at hmem
        rcases hsl : alistGet? st.stock_subscribers c with _ | ids
        · rw [hsl] at hmem
          exact absurd hmem (by simp)
        · rw [hsl] at hmem
          obtain ⟨p, hp, hp1, hp2⟩ := alistGet?_some_mem hsl
          have := hinv.2.1 p hp id (by
            rw [stockIdsOf, hp1, hsl]
            exact hmem)
          rw [subsOf, hlook] at this
          exact absurd this (by simp)
      have hmrem : id ∉ st.market_subscribers := by
        intro hmem
        have := hinv.2.2.1.1 id hmem
        rw [subsOf, hlook] at this
        exact absurd this (by simp)
      have hnrem : id ∉ st.nine_turn_subscribers := by
        intro hmem
        have := hinv.2.2.1.2 id hmem
        rw [subsOf, hlook] at this
        exact absurd this (by simp)
      exact disconnect_core st st id hinv rfl rfl (fun _ _ h => h) (fun p hp => ⟨p, hp, rfl⟩)
        (fun _ h => h) (fun _ h => h) hsrem hmrem hnrem hinv.2.2.2
    · have hcl : cleanup_subscriptions st id = topics.foldl (cleanupTopic id) st := by
        rw [cleanup_subscriptions, hlook]
      rw [hcl]
      have hsub : subsOf st id = topics := by
        rw [subsOf, hlook]
        rfl
      have hsrem : ∀ c : String, id ∉ stockIdsOf (topics.foldl (cleanupTopic id) st) c := by
        intro c hmem
        by_cases htc : Topic.stock c ∈ topics
        · exact cleanupFold_stock_removed id topics st c htc hmem
        · have hmem2 := cleanupFold_stock_subset id topics st c id hmem
          rw [stockIdsOf] at hmem2
          rcases hsl : alistGet? st.stock_subscribers c with _ | ids
          · rw [hsl] at hmem2
            exact absurd hmem2 (by simp)
          · rw [hsl] at hmem2
            obtain ⟨p, hp, hp1, hp2⟩ := alistGet?_some_mem hsl
            have := hinv.2.1 p hp id (by
              rw [stockIdsOf, hp1, hsl]
              exact hmem2)
            rw [hp1, hsub] at this
            exact htc this
      have hmrem : id ∉ (topics.foldl (cleanupTopic id) st).market_subscribers := by
        intro hmem
        by_cases htc : Topic.market ∈ topics
        · exact cleanupFold_market_removed id topics st htc hmem
        · have hmem2 := cleanupFold_market_subset id topics st id hmem
          have := hinv.2.2.1.1 id hmem2
          rw [hsub] at this
          exact htc this
      have hnrem : id ∉ (topics.foldl (cleanupTopic id) st).nine_turn_subscribers := by
        intro hmem
        by_cases htc : Topic.nineTurn ∈ topics
        · exact cleanupFold_nineTurn_removed id topics st htc hmem
        · have hmem2 := cleanupFold_nineTurn_subset id topics st id hmem
          have := hinv.2.2.1.2 id hmem2
          rw [hsub] at this
          exact htc this
      exact disconnect_core st (topics.foldl (cleanupTopic id) st) id hinv
        (cleanupFold_frame id topics st).1 (cleanupFold_frame id topics st).2
        (cleanupFold_stock_subset id topics st)
        (cleanupFold_stock_key id topics st)
        (cleanupFold_market_subset id topics st)
        (cleanupFold_nineTurn_subset id topics st)
        hsrem hmrem hnrem
        (cleanupFold_inv4 id topics st hinv.2.2.2)
  · rw [if_neg hact]
    exact hinv

/-- `send_personal_message` preserves the registry invariant. -/
theorem send_personal_message_inv (st : CMState) (hinv : RegistryInv st) (id : String)
    (ok : Bool) : RegistryInv (send_personal_message st id ok) := by
  rw [send_personal_message]
  by_cases h : id ∈ st.active_connections ∧ ok = false
  · rw [if_pos h]
    exact disconnect_inv st hinv id
  · rw [if_neg h]
    exact hinv

/-- `connect` with a fresh (never-seen) generated id preserves the
registry invariant. -/
theorem connect_inv (st : CMState) (hinv : RegistryInv st) (id : String) (ok : Bool)
    (hfresh : id ∉ st.active_connections) : RegistryInv (connect st id ok) := by
  rw [connect]
  have hnone : alistGet? st.subscriptions id = none := by
    rcases h : alistGet? st.subscriptions id with _ | v
    · rfl
    · obtain ⟨p, hp, hp1, _⟩ := alistGet?_some_mem h
      exact absurd (hp1 ▸ hinv.1.2 p hp) hfresh
  refine send_personal_message_inv _ ⟨⟨?_, ?_⟩, ?_, ⟨?_, ?_⟩, ?_⟩ id ok
  · intro x hx
    rcases mem_setAdd.mp hx with h1 | h1
    · have hne : x ≠ id := fun he => hfresh (he ▸ h1)
      show (alistGet? (alistSet st.subscriptions id []) x).isSome = true
      rw [alistGet?_set_ne _ _ _ _ hne]
      exact hinv.1.1 x h1
    · subst h1
      show (alistGet? (alistSet st.subscriptions x []) x).isSome = true
      rw [alistGet?_set_self]
      rfl
  · intro p hp
    show p.1 ∈ setAdd st.active_connections id
    rcases mem_alistSet_key hp with h1 | h1
    · exact mem_setAdd.mpr (Or.inr h1)
    · exact mem_setAdd.mpr (Or.inl (hinv.1.2 p h1))
  · intro p hp id' hid'
    have hid1 : id' ∈ stockIdsOf st p.1 := hid'
    have hne : id' ≠ id := by
      intro he
      subst he
      have := hinv.2.1 p hp id' hid1
      rw [subsOf, hnone] at this
      exact absurd this (by simp)
    show Topic.stock p.1 ∈ (alistGet? (alistSet st.subscriptions id []) id').getD []
    rw [alistGet?_set_ne _ _ _ _ hne]
    exact hinv.2.1 p hp id' hid1
  · intro x hx
    have hne : x ≠ id := by
      intro he
      subst he
      have := hinv.2.2.1.1 x hx
      rw [subsOf, hnone] at this
      exact absurd this (by simp)
    show Topic.market ∈ (alistGet? (alistSet st.subscriptions id []) x).getD []
    rw [alistGet?_set_ne _ _ _ _ hne]
    exact hinv.2.2.1.1 x hx
  · intro x hx
    have hne : x ≠ id := by
      intro he
      subst he
      have := hinv.2.2.1.2 x hx
      rw [subsOf, hnone] at this
      exact absurd this (by simp)
    show Topic.nineTurn ∈ (alistGet? (alistSet st.subscriptions id []) x).getD []
    rw [alistGet?_set_ne _ _ _ _ hne]
    exact hinv.2.2.1.2 x hx
  · intro p hp
    exact hinv.2.2.2 p hp

/-- `subscribe_stock` preserves the registry invariant. -/
theorem subscribe_stock_inv (st : CMState) (hinv : RegistryInv st) (id code : String)
    (ok : Bool) : RegistryInv (subscribe_stock st id code ok) := by
  rw [subscribe_stock]
  by_cases hact : id ∈ st.active_connections
  · rw [if_pos hact]
    show RegistryInv (send_personal_message
      ⟨st.active_connections,
       alistUpdate st.subscriptions id (fun s => setAdd s (Topic.stock code)),
       alistUpdate (if (alistGet? st.stock_subscribers code).isSome then
           st.stock_subscribers
         else alistSet st.stock_subscribers code []) code (fun s => setAdd s id),
       st.market_subscribers, st.nine_turn_subscribers⟩ id ok)
    obtain ⟨s0, hs0⟩ : ∃ s0, alistGet? st.subscriptions id = some s0 := by
      rcases h : alistGet? st.subscriptions id with _ | v
      · have := hinv.1.1 id hact
        rw [h] at this
        exact absurd this (by simp)
      · exact ⟨v, rfl⟩
    have hsubs2 : alistGet? (alistUpdate st.subscriptions id
        (fun s => setAdd s (Topic.stock code))) id = some (setAdd s0 (Topic.stock code)) := by
      rw [alistGet?_update_self, hs0]
      rfl
    have hsubs2ne : ∀ x : String, x ≠ id →
        alistGet? (alistUpdate st.subscriptions id
          (fun s => setAdd s (Topic.stock code))) x = alistGet? st.subscriptions x :=
      fun x hx => alistGet?_update_ne _ _ _ _ hx
    have hstock2 : alistGet? (alistUpdate (if (alistGet? st.stock_subscribers code).isSome
        then st.stock_subscribers else alistSet st.stock_subscribers code []) code
        (fun s => setAdd s id)) code =
        some (setAdd ((alistGet? st.stock_subscribers code).getD []) id) := by
      rcases h : alistGet? st.stock_subscribers code with _ | ids
      · rw [if_neg (by simp), alistGet?_update_self, alistGet?_set_self]
        rfl
      · rw [if_pos (by simp), alistGet?_update_self, h]
        rfl
    have hstock2ne : ∀ c : String, c ≠ code →
        alistGet? (alistUpdate (if (alistGet? st.stock_subscribers code).isSome
          then st.stock_subscribers else alistSet st.stock_subscribers code []) code
          (fun s => setAdd s id)) c = alistGet? st.stock_subscribers c := by
      intro c hc
      rw [alistGet?_update_ne _ _ _ _ hc]
      rcases h : alistGet? st.stock_subscribers code with _ | ids
      · rw [if_neg (by simp)]
        exact alistGet?_set_ne _ _ _ _ hc
      · rw [if_pos (by simp)]
    have hkeys : ∀ p : String × List String,
        p ∈ alistUpdate (if (alistGet? st.stock_subscribers code).isSome
          then st.stock_subscribers else alistSet st.stock_subscribers code []) code
          (fun s => setAdd s id) →
        p.1 = code ∨ ∃ q ∈ st.stock_subscribers, p.1 = q.1 := by
      intro p hp
      obtain ⟨q, hq, hpq⟩ := mem_alistUpdate_key hp
      rcases h : alistGet? st.stock_subscribers code with _ | ids
      · rw [if_neg (by rw [h]; simp)] at hq
        rcases mem_alistSet_key hq with h1 | h1
        · exact Or.inl (hpq.trans h1)
        · exact Or.inr ⟨q, h1, hpq⟩
      · rw [if_pos (by rw [h]; simp)] at hq
        exact Or.inr ⟨q, hq, hpq⟩
    have hold : ∀ (x : String) (t : Topic), t ∈ subsOf st x →
        t ∈ (alistGet? (alistUpdate st.subscriptions id
          (fun s => setAdd s (Topic.stock code))) x).getD [] := by
      intro x t ht
      by_cases hx : x = id
      · subst hx
        rw [hsubs2]
        rw [subsOf, hs0] at ht
        exact mem_setAdd.mpr (Or.inl ht)
      · rw [hsubs2ne x hx]
        exact ht
    refine send_personal_message_inv _ ⟨⟨?_, ?_⟩, ?_, ⟨?_, ?_⟩, ?_⟩ id ok
    · intro x hx
      show (alistGet? (alistUpdate st.subscriptions id
        (fun s => setAdd s (Topic.stock code))) x).isSome = true
      by_cases hxid : x = id
      · subst hxid
        rw [hsubs2]
        rfl
      · rw [hsubs2ne x hxid]
        exact hinv.1.1 x hx
    · intro p hp
      have hp' : p ∈ alistUpdate st.subscriptions id
          (fun s => setAdd s (Topic.stock code)) := hp
      obtain ⟨q, hq, hpq⟩ := mem_alistUpdate_key hp'
      show p.1 ∈ st.active_connections
      rw [hpq]
      exact hinv.1.2 q hq
    · intro p hp id' hid'
      have hp' : p ∈ alistUpdate (if (alistGet? st.stock_subscribers code).isSome
          then st.stock_subscribers else alistSet st.stock_subscribers code []) code
          (fun s => setAdd s id) := hp
      have hid0 : id' ∈ (alistGet? (alistUpdate
          (if (alistGet? st.stock_subscribers code).isSome then st.stock_subscribers
           else alistSet st.stock_subscribers code []) code
          (fun s => setAdd s id)) p.1).getD [] := hid'
      show Topic.stock p.1 ∈ (alistGet? (alistUpdate st.subscriptions id
        (fun s => setAdd s (Topic.stock code))) id').getD []
      by_cases hc : p.1 = code
      · rw [hc, hstock2] at hid0
        rcases mem_setAdd.mp (by simpa using hid0) with h1 | h1
        · rcases hSo : alistGet? st.stock_subscribers code with _ | ids
          · rw [hSo] at h1
            exact absurd h1 (by simp)
          · rw [hSo] at h1
            obtain ⟨q, hq, hq1, hq2⟩ := alistGet?_some_mem hSo
            have hid2 : id' ∈ stockIdsOf st q.1 := by
              rw [stockIdsOf, hq1, hSo]
              exact h1
            have hres := hinv.2.1 q hq id' hid2
            rw [hq1] at hres
            rw [hc]
            exact hold id' (Topic.stock code) hres
        · subst h1
          rw [alistGet?_update_self, hs0]
          rw [hc]
          exact mem_setAdd.mpr (Or.inr rfl)
      · rw [hstock2ne p.1 hc] at hid0
        rcases hkeys p hp' with h1 | h1
        · exact absurd h1 hc
        · obtain ⟨q, hq, hpq⟩ := h1
          have hid2 : id' ∈ stockIdsOf st q.1 := by
            rw [stockIdsOf, ← hpq]
            exact hid0
          have hres := hinv.2.1 q hq id' hid2
          rw [← hpq] at hres
          exact hold id' (Topic.stock p.1) hres
    · intro x hx
      exact hold x Topic.market (hinv.2.2.1.1 x hx)
    · intro x hx
      exact hold x Topic.nineTurn (hinv.2.2.1.2 x hx)
    · intro p hp
      have hp' : p ∈ alistUpdate (if (alistGet? st.stock_subscribers code).isSome
          then st.stock_subscribers else alistSet st.stock_subscribers code []) code
          (fun s => setAdd s id) := hp
      show (alistGet? (alistUpdate (if (alistGet? st.stock_subscribers code).isSome
        then st.stock_subscribers else alistSet st.stock_subscribers code []) code
        (fun s => setAdd s id)) p.1).getD [] ≠ []
      by_cases hc : p.1 = code
      · rw [hc, hstock2]
        simp only [Option.getD_some]
        exact setAdd_ne_nil _ _
      · rw [hstock2ne p.1 hc]
        rcases hkeys p hp' with h1 | h1
        · exact absurd h1 hc
        · obtain ⟨q, hq, hpq⟩ := h1
          rw [hpq]
          exact hinv.2.2.2 q hq
  · rw [if_neg hact]
    exact hinv

/-- `unsubscribe_stock` preserves the registry invariant. -/
theorem unsubscribe_stock_inv (st : CMState) (hinv : RegistryInv st) (id code : String)
    (ok : Bool) : RegistryInv (unsubscribe_stock st id code ok) := by
  rw [unsubscribe_stock]
  by_cases hact : id ∈ st.active_connections
  · rw [if_pos hact]
    show RegistryInv (send_personal_message
      ⟨st.active_connections,
       alistUpdate st.subscriptions id (fun s => setDiscard s (Topic.stock code)),
       stockDiscard st.stock_subscribers code id,
       st.market_subscribers, st.nine_turn_subscribers⟩ id ok)
    obtain ⟨s0, hs0⟩ : ∃ s0, alistGet? st.subscriptions id = some s0 := by
      rcases h : alistGet? st.subscriptions id with _ | v
      · have := hinv.1.1 id hact
        rw [h] at this
        exact absurd this (by simp)
      · exact ⟨v, rfl⟩
    have hold : ∀ (x : String) (t : Topic), t ≠ Topic.stock code → t ∈ subsOf st x →
        t ∈ (alistGet? (alistUpdate st.subscriptions id
          (fun s => setDiscard s (Topic.stock code))) x).getD [] := by
      intro x t htne ht
      by_cases hx : x = id
      · subst hx
        rw [alistGet?_update_self, hs0]
        rw [subsOf, hs0] at ht
        exact mem_setDiscard.mpr ⟨ht, htne⟩
      · rw [alistGet?_update_ne _ _ _ _ hx]
        exact ht
    refine send_personal_message_inv _ ⟨⟨?_, ?_⟩, ?_, ⟨?_, ?_⟩, ?_⟩ id ok
    · intro x hx
      show (alistGet? (alistUpdate st.subscriptions id
        (fun s => setDiscard s (Topic.stock code))) x).isSome = true
      by_cases hxid : x = id
      · subst hxid
        rw [alistGet?_update_self, hs0]
        rfl
      · rw [alistGet?_update_ne _ _ _ _ hxid]
        exact hinv.1.1 x hx
    · intro p hp
      have hp' : p ∈ alistUpdate st.subscriptions id
          (fun s => setDiscard s (Topic.stock code)) := hp
      obtain ⟨q, hq, hpq⟩ := mem_alistUpdate_key hp'
      show p.1 ∈ st.active_connections
      rw [hpq]
      exact hinv.1.2 q hq
    · intro p hp id' hid'
      have hp' : p ∈ stockDiscard st.stock_subscribers code id := hp
      have hid0 : id' ∈ (alistGet? (stockDiscard st.stock_subscribers code id) p.1).getD []
        := hid'
      show Topic.stock p.1 ∈ (alistGet? (alistUpdate st.subscriptions id
        (fun s => setDiscard s (Topic.stock code))) id').getD []
      by_cases hc : p.1 = code
      · rw [hc] at hid0
        rw [stockDiscard_get_self] at hid0
        rcases hSo : alistGet? st.stock_subscribers code with _ | ids <;> rw [hSo] at hid0
        · exact absurd hid0 (by simp)
        · dsimp only at hid0
          by_cases he : (setDiscard ids id).isEmpty
          · rw [if_pos he] at hid0
            exact absurd hid0 (by simp)
          · rw [if_neg he] at hid0
            simp only [Option.getD_some] at hid0
            obtain ⟨hin, hne⟩ := mem_setDiscard.mp hid0
            obtain ⟨q, hq, hq1, hq2⟩ := alistGet?_some_mem hSo
            have hid2 : id' ∈ stockIdsOf st q.1 := by
              rw [stockIdsOf, hq1, hSo]
              exact hin
            have hres := hinv.2.1 q hq id' hid2
            rw [hq1] at hres
            rw [alistGet?_update_ne _ _ _ _ hne]
            rw [hc]
            exact hres
      · rw [stockDiscard_get_ne _ _ _ _ hc] at hid0
        obtain ⟨q, hq, hpq⟩ := mem_stockDiscard_key hp'
        have hid2 : id' ∈ stockIdsOf st q.1 := by
          rw [stockIdsOf, ← hpq]
          exact hid0
        have hres := hinv.2.1 q hq id' hid2
        rw [← hpq] at hres
        refine hold id' (Topic.stock p.1) ?_ hres
        intro habs
        exact hc (by injection habs)
    · intro x hx
      exact hold x Topic.market (by intro h; injection h) (hinv.2.2.1.1 x hx)
    · intro x hx
      exact hold x Topic.nineTurn (by intro h; injection h) (hinv.2.2.1.2 x hx)
    · intro p hp
      have hp' : p ∈ stockDiscard st.stock_subscribers code id := hp
      show (alistGet? (stockDiscard st.stock_subscribers code id) p.1).getD [] ≠ []
      exact stockDiscard_inv4 (fun q hq => hinv.2.2.2 q hq) p hp'
  · rw [if_neg hact]
    exact hinv

/-- `subscribe_market` preserves the registry invariant. -/
theorem subscribe_market_inv (st : CMState) (hinv : RegistryInv st) (id : String)
    (ok : Bool) : RegistryInv (subscribe_market st id ok) := by
  rw [subscribe_market]
  by_cases hact : id ∈ st.active_connections
  · rw [if_pos hact]
    show RegistryInv (send_personal_message
      ⟨st.active_connections,
       alistUpdate st.subscriptions id (fun s => setAdd s Topic.market),
       st.stock_subscribers,
       setAdd st.market_subscribers id, st.nine_turn_subscribers⟩ id ok)
    obtain ⟨s0, hs0⟩ : ∃ s0, alistGet? st.subscriptions id = some s0 := by
      rcases h : alistGet? st.subscriptions id with _ | v
      · have := hinv.1.1 id hact
        rw [h] at this
        exact absurd this (by simp)
      · exact ⟨v, rfl⟩
    have hsubs2 : alistGet? (alistUpdate st.subscriptions id
        (fun s => setAdd s Topic.market)) id = some (setAdd s0 Topic.market) := by
      rw [alistGet?_update_self, hs0]
      rfl
    have hold : ∀ (x : String) (t : Topic), t ∈ subsOf st x →
        t ∈ (alistGet? (alistUpdate st.subscriptions id
          (fun s => setAdd s Topic.market)) x).getD [] := by
      intro x t ht
      by_cases hx : x = id
      · subst hx
        rw [hsubs2]
        rw [subsOf, hs0] at ht
        exact mem_setAdd.mpr (Or.inl ht)
      · rw [alistGet?_update_ne _ _ _ _ hx]
        exact ht
    refine send_personal_message_inv _ ⟨⟨?_, ?_⟩, ?_, ⟨?_, ?_⟩, ?_⟩ id ok
    · intro x hx
      show (alistGet? (alistUpdate st.subscriptions id
        (fun s => setAdd s Topic.market)) x).isSome = true
      by_cases hxid : x = id
      · subst hxid
        rw [hsubs2]
        rfl
      · rw [alistGet?_update_ne _ _ _ _ hxid]
        exact hinv.1.1 x hx
    · intro p hp
      have hp' : p ∈ alistUpdate st.subscriptions id
          (fun s => setAdd s Topic.market) := hp
      obtain ⟨q, hq, hpq⟩ := mem_alistUpdate_key hp'
      show p.1 ∈ st.active_connections
      rw [hpq]
      exact hinv.1.2 q hq
    · intro p hp id' hid'
      have hp' : p ∈ st.stock_subscribers := hp
      have hid0 : id' ∈ (alistGet? st.stock_subscribers p.1).getD [] := hid'
      have hres := hinv.2.1 p hp' id' hid0
      exact hold id' (Topic.stock p.1) hres
    · intro x hx
      have hx' : x ∈ setAdd st.market_subscribers id := hx
      show Topic.market ∈ (alistGet? (alistUpdate st.subscriptions id
        (fun s => setAdd s Topic.market)) x).getD []
      rcases mem_setAdd.mp hx' with h1 | h1
      · exact hold x Topic.market (hinv.2.2.1.1 x h1)
      · subst h1
        rw [hsubs2]
        exact mem_setAdd.mpr (Or.inr rfl)
    · intro x hx
      exact hold x Topic.nineTurn (hinv.2.2.1.2 x hx)
    · intro p hp
      exact hinv.2.2.2 p hp
  · rw [if_neg hact]
    exact hinv

/-- `unsubscribe_market` preserves the registry invariant. -/
theorem unsubscribe_market_inv (st : CMState) (hinv : RegistryInv st) (id : String)
    (ok : Bool) : RegistryInv (unsubscribe_market st id ok) := by
  rw [unsubscribe_market]
  by_cases hact : id ∈ st.active_connections
  · rw [if_pos hact]
    show RegistryInv (send_personal_message
      ⟨st.active_connections,
       alistUpdate st.subscriptions id (fun s => setDiscard s Topic.market),
       st.stock_subscribers,
       setDiscard st.market_subscribers id, st.nine_turn_subscribers⟩ id ok)
    obtain ⟨s0, hs0⟩ : ∃ s0, alistGet? st.subscriptions id = some s0 := by
      rcases h : alistGet? st.subscriptions id with _ | v
      · have := hinv.1.1 id hact
        rw [h] at this
        exact absurd this (by simp)
      · exact ⟨v, rfl⟩
    have hold : ∀ (x : String) (t : Topic), t ≠ Topic.market → t ∈ subsOf st x →
        t ∈ (alistGet? (alistUpdate st.subscriptions id
          (fun s => setDiscard s Topic.market)) x).getD [] := by
      intro x t htne ht
      by_cases hx : x = id
      · subst hx
        rw [alistGet?_update_self, hs0]
        rw [subsOf, hs0] at ht
        exact mem_setDiscard.mpr ⟨ht, htne⟩
      · rw [alistGet?_update_ne _ _ _ _ hx]
        exact ht
    refine send_personal_message_inv _ ⟨⟨?_, ?_⟩, ?_, ⟨?_, ?_⟩, ?_⟩ id ok
    · intro x hx
      show (alistGet? (alistUpdate st.subscriptions id
        (fun s => setDiscard s Topic.market)) x).isSome = true
      by_cases hxid : x = id
      · subst hxid
        rw [alistGet?_update_self, hs0]
        rfl
      · rw [alistGet?_update_ne _ _ _ _ hxid]
        exact hinv.1.1 x hx
    · intro p hp
      have hp' : p ∈ alistUpdate st.subscriptions id
          (fun s => setDiscard s Topic.market) := hp
      obtain ⟨q, hq, hpq⟩ := mem_alistUpdate_key hp'
      show p.1 ∈ st.active_connections
      rw [hpq]
      exact hinv.1.2 q hq
    · intro p hp id' hid'
      have hp' : p ∈ st.stock_subscribers := hp
      have hid0 : id' ∈ (alistGet? st.stock_subscribers p.1).getD [] := hid'
      have hres := hinv.2.1 p hp' id' hid0
      exact hold id' (Topic.stock p.1) (by intro h; injection h) hres
    · intro x hx
      have hx' : x ∈ setDiscard st.market_subscribers id := hx
      obtain ⟨hxm, hxid⟩ := mem_setDiscard.mp hx'
      show Topic.market ∈ (alistGet? (alistUpdate st.subscriptions id
        (fun s => setDiscard s Topic.market)) x).getD []
      rw [alistGet?_update_ne _ _ _ _ hxid]
      exact hinv.2.2.1.1 x hxm
    · intro x hx
      exact hold x Topic.nineTurn (by intro h; injection h) (hinv.2.2.1.2 x hx)
    · intro p hp
      exact hinv.2.2.2 p hp
  · rw [if_neg hact]
    exact hinv

/-- `subscribe_nine_turn` preserves the registry invariant. -/
theorem subscribe_nine_turn_inv (st : CMState) (hinv : RegistryInv st) (id : String)
    (ok : Bool) : RegistryInv (subscribe_nine_turn st id ok) := by
  rw [subscribe_nine_turn]
  by_cases hact : id ∈ st.active_connections
  · rw [if_pos hact]
    show RegistryInv (send_personal_message
      ⟨st.active_connections,
       alistUpdate st.subscriptions id (fun s => setAdd s Topic.nineTurn),
       st.stock_subscribers, st.market_subscribers,
       setAdd st.nine_turn_subscribers id⟩ id ok)
    obtain ⟨s0, hs0⟩ : ∃ s0, alistGet? st.subscriptions id = some s0 := by
      rcases h : alistGet? st.subscriptions id with _ | v
      · have := hinv.1.1 id hact
        rw [h] at this
        exact absurd this (by simp)
      · exact ⟨v, rfl⟩
    have hsubs2 : alistGet? (alistUpdate st.subscriptions id
        (fun s => setAdd s Topic.nineTurn)) id = some (setAdd s0 Topic.nineTurn) := by
      rw [alistGet?_update_self, hs0]
      rfl
    have hold : ∀ (x : String) (t : Topic), t ∈ subsOf st x →
        t ∈ (alistGet? (alistUpdate st.subscriptions id
          (fun s => setAdd s Topic.nineTurn)) x).getD [] := by
      intro x t ht
      by_cases hx : x = id
      · subst hx
        rw [hsubs2]
        rw [subsOf, hs0] at ht
        exact mem_setAdd.mpr (Or.inl ht)
      · rw [alistGet?_update_ne _ _ _ _ hx]
        exact ht
    refine send_personal_message_inv _ ⟨⟨?_, ?_⟩, ?_, ⟨?_, ?_⟩, ?_⟩ id ok
    · intro x hx
      show (alistGet? (alistUpdate st.subscriptions id
        (fun s => setAdd s Topic.nineTurn)) x).isSome = true
      by_cases hxid : x = id
      · subst hxid
        rw [hsubs2]
        rfl
      · rw [alistGet?_update_ne _ _ _ _ hxid]
        exact hinv.1.1 x hx
    · intro p hp
      have hp' : p ∈ alistUpdate st.subscriptions id
          (fun s => setAdd s Topic.nineTurn) := hp
      obtain ⟨q, hq, hpq⟩ := mem_alistUpdate_key hp'
      show p.1 ∈ st.active_connections
      rw [hpq]
      exact hinv.1.2 q hq
    · intro p hp id' hid'
      have hp' : p ∈ st.stock_subscribers := hp
      have hid0 : id' ∈ (alistGet? st.stock_subscribers p.1).getD [] := hid'
      have hres := hinv.2.1 p hp' id' hid0
      exact hold id' (Topic.stock p.1) hres
    · intro x hx
      exact hold x Topic.market (hinv.2.2.1.1 x hx)
    · intro x hx
      have hx' : x ∈ setAdd st.nine_turn_subscribers id := hx
      show Topic.nineTurn ∈ (alistGet? (alistUpdate st.subscriptions id
        (fun s => setAdd s Topic.nineTurn)) x).getD []
      rcases mem_setAdd.mp hx' with h1 | h1
      · exact hold x Topic.nineTurn (hinv.2.2.1.2 x h1)
      · subst h1
        rw [hsubs2]
        exact mem_setAdd.mpr (Or.inr rfl)
    · intro p hp
      exact hinv.2.2.2 p hp
  · rw [if_neg hact]
    exact hinv

/-- `unsubscribe_nine_turn` preserves the registry invariant. -/
theorem unsubscribe_nine_turn_inv (st : CMState) (hinv : RegistryInv st) (id : String)
    (ok : Bool) : RegistryInv (unsubscribe_nine_turn st id ok) := by
  rw [unsubscribe_nine_turn]
  by_cases hact : id ∈ st.active_connections
  · rw [if_pos hact]
    show RegistryInv (send_personal_message
      ⟨st.active_connections,
       alistUpdate st.subscriptions id (fun s => setDiscard s Topic.nineTurn),
       st.stock_subscribers, st.market_subscribers,
       setDiscard st.nine_turn_subscribers id⟩ id ok)
    obtain ⟨s0, hs0⟩ : ∃ s0, alistGet? st.subscriptions id = some s0 := by
      rcases h : alistGet? st.subscriptions id with _ | v
      · have := hinv.1.1 id hact
        rw [h] at this
        exact absurd this (by simp)
      · exact ⟨v, rfl⟩
    have hold : ∀ (x : String) (t : Topic), t ≠ Topic.nineTurn → t ∈ subsOf st x →
        t ∈ (alistGet? (alistUpdate st.subscriptions id
          (fun s => setDiscard s Topic.nineTurn)) x).getD [] := by
      intro x t htne ht
      by_cases hx : x = id
      · subst hx
        rw [alistGet?_update_self, hs0]
        rw [subsOf, hs0] at ht
        exact mem_setDiscard.mpr ⟨ht, htne⟩
      · rw [alistGet?_update_ne _ _ _ _ hx]
        exact ht
    refine send_personal_message_inv _ ⟨⟨?_, ?_⟩, ?_, ⟨?_, ?_⟩, ?_⟩ id ok
    · intro x hx
      show (alistGet? (alistUpdate st.subscriptions id
        (fun s => setDiscard s Topic.nineTurn)) x).isSome = true
      by_cases hxid : x = id
      · subst hxid
        rw [alistGet?_update_self, hs0]
        rfl
      · rw [alistGet?_update_ne _ _ _ _ hxid]
        exact hinv.1.1 x hx
    · intro p hp
      have hp' : p ∈ alistUpdate st.subscriptions id
          (fun s => setDiscard s Topic.nineTurn) := hp
      obtain ⟨q, hq, hpq⟩ := mem_alistUpdate_key hp'
      show p.1 ∈ st.active_connections
      rw [hpq]
      exact hinv.1.2 q hq
    · intro p hp id' hid'
      have hp' : p ∈ st.stock_subscribers := hp
      have hid0 : id' ∈ (alistGet? st.stock_subscribers p.1).getD [] := hid'
      have hres := hinv.2.1 p hp' id' hid0
      exact hold id' (Topic.stock p.1) (by intro h; injection h) hres
    · intro x hx
      exact hold x Topic.market (by intro h; injection h) (hinv.2.2.1.1 x hx)
    · intro x hx
      have hx' : x ∈ setDiscard st.nine_turn_subscribers id := hx
      obtain ⟨hxm, hxid⟩ := mem_setDiscard.mp hx'
      show Topic.nineTurn ∈ (alistGet? (alistUpdate st.subscriptions id
        (fun s => setDiscard s Topic.nineTurn)) x).getD []
      rw [alistGet?_update_ne _ _ _ _ hxid]
      exact hinv.2.2.1.2 x hxm
    · intro p hp
      exact hinv.2.2.2 p hp
  · rw [if_neg hact]
    exact hinv

/-- The stock-topic broadcast cleanup preserves parts 1-3 of the
registry invariant (part 4 can fail: the set may be filtered down to
empty while its key survives). -/
theorem broadcast_to_stock_inv123 (st : CMState) (hinv : RegistryInv st)
    (code : String) (failing : List String) :
    Inv1 (broadcast_to_stock st code failing) ∧
      Inv2 (broadcast_to_stock st code failing) ∧
      Inv3 (broadcast_to_stock st code failing) := by
  rw [broadcast_to_stock]
  show Inv1 ⟨st.active_connections, st.subscriptions,
      alistUpdate st.stock_subscribers code
        (fun ids => ids.filter fun i => i ∈ st.active_connections ∧ i ∉ failing),
      st.market_subscribers, st.nine_turn_subscribers⟩ ∧ _ ∧ _
  refine ⟨⟨hinv.1.1, hinv.1.2⟩, ?_, ⟨hinv.2.2.1.1, hinv.2.2.1.2⟩⟩
  intro p hp id' hid'
  have hp' : p ∈ alistUpdate st.stock_subscribers code
      (fun ids => ids.filter fun i => i ∈ st.active_connections ∧ i ∉ failing) := hp
  obtain ⟨q, hq, hpq⟩ := mem_alistUpdate_key hp'
  have hid0 : id' ∈ (alistGet? (alistUpdate st.stock_subscribers code
      (fun ids => ids.filter fun i => i ∈ st.active_connections ∧ i ∉ failing)) p.1).getD []
    := hid'
  show Topic.stock p.1 ∈ subsOf st id'
  by_cases hc : p.1 = code
  · rw [hc, alistGet?_update_self] at hid0
    rcases hSo : alistGet? st.stock_subscribers code with _ | ids
    · rw [hSo] at hid0
      exact absurd hid0 (by simp)
    · rw [hSo] at hid0
      have hid1 : id' ∈ ids.filter (fun i => i ∈ st.active_connections ∧ i ∉ failing)
        := hid0
      have hin : id' ∈ ids := List.mem_of_mem_filter hid1
      obtain ⟨q2, hq2, hq21, hq22⟩ := alistGet?_some_mem hSo
      have hid2 : id' ∈ stockIdsOf st q2.1 := by
        rw [stockIdsOf, hq21, hSo]
        exact hin
      have hres := hinv.2.1 q2 hq2 id' hid2
      rw [hq21] at hres
      rw [hc]
      exact hres
  · rw [alistGet?_update_ne _ _ _ _ hc] at hid0
    have hid2 : id' ∈ stockIdsOf st q.1 := by
      rw [stockIdsOf, ← hpq]
      exact hid0
    have hres := hinv.2.1 q hq id' hid2
    rw [← hpq] at hres
    exact hres

/-- The market-topic broadcast cleanup preserves parts 1-3 of the
registry invariant. -/
theorem broadcast_to_market_inv123 (st : CMState) (hinv : RegistryInv st)
    (failing : List String) :
    Inv1 (broadcast_to_market st failing) ∧
      Inv2 (broadcast_to_market st failing) ∧
      Inv3 (broadcast_to_market st failing) := by
  rw [broadcast_to_market]
  refine ⟨⟨hinv.1.1, hinv.1.2⟩, fun p hp id' hid' => hinv.2.1 p hp id' hid',
    ?_, fun x hx => hinv.2.2.1.2 x hx⟩
  intro x hx
  have hx' : x ∈ st.market_subscribers.filter
      (fun i => i ∈ st.active_connections ∧ i ∉ failing) := hx
  exact hinv.2.2.1.1 x (List.mem_of_mem_filter hx')

/-- The nine-turn-topic broadcast cleanup preserves parts 1-3 of the
registry invariant. -/
theorem broadcast_to_nine_turn_inv123 (st : CMState) (hinv : RegistryInv st)
    (failing : List String) :
    Inv1 (broadcast_to_nine_turn st failing) ∧
      Inv2 (broadcast_to_nine_turn st failing) ∧
      Inv3 (broadcast_to_nine_turn st failing) := by
  rw [broadcast_to_nine_turn]
  refine ⟨⟨hinv.1.1, hinv.1.2⟩, fun p hp id' hid' => hinv.2.1 p hp id' hid',
    fun x hx => hinv.2.2.1.1 x hx, ?_⟩
  intro x hx
  have hx' : x ∈ st.nine_turn_subscribers.filter
      (fun i => i ∈ st.active_connections ∧ i ∉ failing) := hx
  exact hinv.2.2.1.2 x (List.mem_of_mem_filter hx')

/-- Claim C10, amended: starting from any state satisfying the registry
invariant, every `ConnectionManager` operation — `connect` of a fresh
id, `disconnect`, the six subscribe/unsubscribe operations and the
send-failure cleanup of `send_personal_message` — preserves the full
registry invariant (id sets of `active_connections` and `subscriptions`
agree; stock, market and nine-turn subscriber entries are backed by the
matching topic in the forward subscription set; no stock code maps to an
empty subscriber set).  The broadcast cleanup paths preserve only parts
1-3: they filter dead connections out of a subscriber set in place and
never delete the key, so an emptied stock set can remain keyed,
violating part 4 (see the counterexample). -/
theorem C10_registry_spec (st : CMState) (hinv : RegistryInv st)
    (id idNew code : String) (ok : Bool) (failing : List String)
    (hfresh : idNew ∉ st.active_connections) :
    RegistryInv (connect st idNew ok) ∧
    RegistryInv (disconnect st id) ∧
    RegistryInv (subscribe_stock st id code ok) ∧
    RegistryInv (unsubscribe_stock st id code ok) ∧
    RegistryInv (subscribe_market st id ok) ∧
    RegistryInv (unsubscribe_market st id ok) ∧
    RegistryInv (subscribe_nine_turn st id ok) ∧
    RegistryInv (unsubscribe_nine_turn st id ok) ∧
    RegistryInv (send_personal_message st id ok) ∧
    (Inv1 (broadcast_to_stock st code failing) ∧
      Inv2 (broadcast_to_stock st code failing) ∧
      Inv3 (broadcast_to_stock st code failing)) ∧
    (Inv1 (broadcast_to_market st failing) ∧
      Inv2 (broadcast_to_market st failing) ∧
      Inv3 (broadcast_to_market st failing)) ∧
    (Inv1 (broadcast_to_nine_turn st failing) ∧
      Inv2 (broadcast_to_nine_turn st failing) ∧
      Inv3 (broadcast_to_nine_turn st failing)) :=
  ⟨connect_inv st hinv idNew ok hfresh,
   disconnect_inv st hinv id,
   subscribe_stock_inv st hinv id code ok,
   unsubscribe_stock_inv st hinv id code ok,
   subscribe_market_inv st hinv id ok,
   unsubscribe_market_inv st hinv id ok,
   subscribe_nine_turn_inv st hinv id ok,
   unsubscribe_nine_turn_inv st hinv id ok,
   send_personal_message_inv st hinv id ok,
   broadcast_to_stock_inv123 st hinv code failing,
   broadcast_to_market_inv123 st hinv failing,
   broadcast_to_nine_turn_inv123 st hinv failing⟩

/-- Concrete instance of the amended claim C10: the registry state with
one active connection `"c1"` subscribed to stock `"A"` satisfies the
invariant, `"c2"` is fresh for it, and every operation instantiated
there preserves the stated invariant parts. -/
theorem C10_witness :
    RegistryInv (⟨["c1"], [("c1", [Topic.stock "A"])], [("A", ["c1"])], [], []⟩ : CMState) ∧
    "c2" ∉ (⟨["c1"], [("c1", [Topic.stock "A"])], [("A", ["c1"])], [], []⟩
      : CMState).active_connections ∧
    (RegistryInv (connect ⟨["c1"], [("c1", [Topic.stock "A"])], [("A", ["c1"])], [], []⟩
        "c2" true) ∧
      RegistryInv (disconnect ⟨["c1"], [("c1", [Topic.stock "A"])], [("A", ["c1"])], [], []⟩
        "c1") ∧
      RegistryInv (unsubscribe_stock
        ⟨["c1"], [("c1", [Topic.stock "A"])], [("A", ["c1"])], [], []⟩ "c1" "A" true)) := by
  have h1 : RegistryInv (⟨["c1"], [("c1", [Topic.stock "A"])], [("A", ["c1"])], [], []⟩
      : CMState) := by decide
  have h2 : "c2" ∉ (⟨["c1"], [("c1", [Topic.stock "A"])], [("A", ["c1"])], [], []⟩
      : CMState).active_connections := by decide
  have hall := C10_registry_spec
    ⟨["c1"], [("c1", [Topic.stock "A"])], [("A", ["c1"])], [], []⟩ h1 "c1" "c2" "A" true [] h2
  exact ⟨h1, h2, hall.1, hall.2.1, hall.2.2.2.1⟩
